import Mathlib

/-!
Shallow embedding of the algorithmic core of the Ensemble_Model repository:
the ensemble signal combiner (`portfolio_manager.py`, `PortfolioManager`),
the event-driven backtest simulator (`backtest_engine.py`, `BacktestEngine.run`)
and the performance-metrics calculator (`BacktestEngine.get_performance_metrics`).

Modelling conventions:
* Python floats are idealized as exact arithmetic: `ℚ` wherever the source only
  adds, multiplies and divides, and `ℝ` where the source takes square roots
  (the z-score normalization divides by a standard deviation) or real powers.
* Pandas `NaN` entries are modelled by `Option` (`none` = NaN); the pandas
  skip-NaN conventions of `mean`, `std` and `sum(axis=1)` are made explicit.
* Division is the total division of `ℚ`/`ℝ` (`x / 0 = 0`).  This coincides with
  the source everywhere a claim evaluates it; the degenerate float cases
  (a zero price or a zero previous portfolio value, where Python would raise
  `ZeroDivisionError`, or a nonzero score over a zero per-date score sum, where
  NumPy produces `inf`) are outside every claim considered here.
* Exceptions are modelled with `Except String`; list indexing that can raise
  `IndexError`/`KeyError` in the source is modelled by explicit `Option` reads.
* Dates and tickers are opaque identifiers, modelled as `ℕ`.
-/

deriving instance DecidableEq for Except

namespace EnsembleModel

/-- Counts, over a list, the elements satisfying a (decidable) predicate.
Used to express the pandas `groupby(...).rank(ascending=False, method='first')`
semantics as an explicit count. -/
def pcount {α : Type} (p : α → Prop) [DecidablePred p] : List α → ℕ
  | [] => 0
  | a :: l => (if p a then 1 else 0) + pcount p l

/-! ## Ensemble combiner (`portfolio_manager.py`) -/

/-- Configuration of the portfolio manager (`PortfolioConfig` dataclass).
`top_n_assets` is kept as an integer exactly as in the source (the code never
validates it, so non-positive values flow through the computation). -/
structure PortfolioConfig where
  top_n_assets : ℤ := 5
  rebalance_frequency : String := "daily"
  equal_weight : Bool := true
  long_only : Bool := true

/-- Mean of a pandas float column with NaN entries skipped
(`combined[col].mean()`); `none` when every entry is NaN. -/
def colMean (col : List (Option ℚ)) : Option ℚ :=
  let vals := col.filterMap id
  if vals.length = 0 then none
  else some (vals.sum / (vals.length : ℚ))

/-- Sample variance (`ddof = 1`, the pandas default for `.std()` squared) of a
column with NaN entries skipped; `none` (NaN) when fewer than two values. -/
def colVar (col : List (Option ℚ)) : Option ℚ :=
  let vals := col.filterMap id
  if vals.length ≤ 1 then none
  else
    let m := vals.sum / (vals.length : ℚ)
    some ((vals.map (fun x => (x - m) ^ 2)).sum / ((vals.length : ℚ) - 1))

/-- Standard deviation of a column, `combined[col].std()`:
the square root of the sample variance; `none` models NaN. -/
noncomputable def colStd (col : List (Option ℚ)) : Option ℝ :=
  (colVar col).map (fun v : ℚ => Real.sqrt (v : ℝ))

/-- Step 3 of `generate_ensemble_signals` for one strategy column:
`if std > 0: (col - mean) / std else: 0.0`.  A NaN mean or NaN std compares
false with `0`, so those cases take the `else` branch, which overwrites the
whole column (NaN rows included) with the scalar `0.0`. -/
noncomputable def normalizeCol (col : List (Option ℚ)) : List (Option ℝ) :=
  match colMean col, colStd col with
  | some m, some s =>
      if 0 < s then col.map (Option.map (fun q : ℚ => ((q : ℝ) - (m : ℝ)) / s))
      else col.map (fun _ => some (0 : ℝ))
  | _, _ => col.map (fun _ => some (0 : ℝ))

/-- Row sum with pandas `DataFrame.sum(axis=1)` semantics: NaN entries are
skipped, and an all-NaN row sums to `0.0`. -/
noncomputable def sumSkipNa (l : List (Option ℝ)) : ℝ :=
  (l.filterMap id).sum

/-- Rank of the row at position `i` (date `d`, combined score `s`) within the
flat table `rows` of (position, date, combined score) triples, following
`groupby(level='date')['combined_score'].rank(ascending=False, method='first')`:
one plus the number of rows of the same date that either score strictly higher
or score equally and occur earlier in the table. -/
noncomputable def rankAt (rows : List (ℕ × ℕ × ℝ)) (i : ℕ) (d : ℕ) (s : ℝ) : ℕ :=
  1 + pcount (fun jr : ℕ × ℕ × ℝ =>
        jr.2.1 = d ∧ (s < jr.2.2 ∨ (jr.2.2 = s ∧ jr.1 < i))) rows

/-- Per-date sum of combined scores,
`combined.groupby(level='date')['combined_score'].transform('sum')`. -/
noncomputable def dateScoreSum (rows : List (ℕ × ℕ × ℝ)) (d : ℕ) : ℝ :=
  ((rows.filter (fun r => r.2.1 == d)).map (fun r => r.2.2)).sum

/-- Row of the combined output frame of `generate_ensemble_signals`:
the (date, ticker) index, the raw per-strategy signal columns, the normalized
columns, and the derived `combined_score`, `rank`, `position`, `weight`. -/
structure EnsembleRow where
  date : ℕ
  ticker : ℕ
  raw_scores : List (Option ℚ)
  norm_scores : List (Option ℝ)
  combined_score : ℝ
  rank : ℕ
  position : ℝ
  weight : ℝ

/-- The "beats" relation behind `rank(ascending=False, method='first')` over
(position, date, score) triples: `a` precedes `b` in rank order when `a` scores
strictly higher, or scores equally and was encountered earlier. -/
def beats (a b : ℕ × ℕ × ℝ) : Prop :=
  b.2.2 < a.2.2 ∨ (a.2.2 = b.2.2 ∧ a.1 < b.1)

noncomputable instance : DecidableRel beats := fun a b => by
  unfold beats
  infer_instance

/-- The `combined_score` of row `i`: the sum, NaN entries skipped, of the
normalized per-strategy values of that row (step 4,
`combined[signal_cols].sum(axis=1)`). -/
noncomputable def ensembleScoreAt (tables : List (List (Option ℚ))) (i : ℕ) : ℝ :=
  sumSkipNa ((tables.map normalizeCol).map (fun t => t.getD i none))

/-- The flat (position, date, combined score) table that the per-date ranking
reads. -/
noncomputable def ensembleScored (index : List (ℕ × ℕ))
    (tables : List (List (Option ℚ))) : List (ℕ × ℕ × ℝ) :=
  index.enum.map (fun p => (p.1, p.2.1, ensembleScoreAt tables p.1))

/-- One output row of `generate_ensemble_signals` for the enumerated index
entry `p = (position, (date, ticker))`: carries the raw and normalized
per-strategy columns, the combined score, the per-date rank (step 5), the
top-N membership `position` (step 6: `1.0` where `rank <= top_n_assets`) and
the weight (equal-weight: `position / top_n_assets`; otherwise the score over
the per-date score sum with NaN filled by 0, modelled by total division). -/
noncomputable def ensembleRow (cfg : PortfolioConfig) (index : List (ℕ × ℕ))
    (tables : List (List (Option ℚ))) (p : ℕ × ℕ × ℕ) : EnsembleRow :=
  let s := ensembleScoreAt tables p.1
  let rk := rankAt (ensembleScored index tables) p.1 p.2.1 s
  let position : ℝ := if (rk : ℤ) ≤ cfg.top_n_assets then 1 else 0
  let weight : ℝ :=
    if cfg.equal_weight then position / ((cfg.top_n_assets : ℤ) : ℝ)
    else s / dateScoreSum (ensembleScored index tables) p.2.1
  ⟨p.2.1, p.2.2, tables.map (fun t => t.getD p.1 none),
   (tables.map normalizeCol).map (fun t => t.getD p.1 none), s, rk, position, weight⟩

/-- The full output frame: one `EnsembleRow` per index entry, in encounter
order. -/
noncomputable def ensembleRows (cfg : PortfolioConfig) (index : List (ℕ × ℕ))
    (tables : List (List (Option ℚ))) : List EnsembleRow :=
  index.enum.map (ensembleRow cfg index tables)

/-- Embedding of `PortfolioManager.generate_ensemble_signals` downstream of the
per-strategy signal generation: `index` is the common (date, ticker) index of
the market data (rows in encounter order) and `tables` holds, per strategy, the
signal column aligned to that index (`none` = NaN warm-up value).  The leading
check models `pd.concat([], axis=1)` raising `ValueError` when the strategies
list is empty; no other validation exists in the source (`PortfolioManager`
performs no configuration checks).  Rows shorter than the index are padded with
NaN, like an aligning concat. -/
noncomputable def generate_ensemble_signals (cfg : PortfolioConfig)
    (index : List (ℕ × ℕ)) (tables : List (List (Option ℚ))) :
    Except String (List EnsembleRow) :=
  if tables.isEmpty then .error "No objects to concatenate"
  else .ok (ensembleRows cfg index tables)

/-! ## Backtest simulator (`backtest_engine.py`) -/

/-- Side of a trade record (`'BUY'` / `'SELL'`). -/
inductive TradeAction
  | buy
  | sell
deriving DecidableEq, Repr

/-- Entry of the append-only trade log (`self.trades`). -/
structure Trade where
  date : ℕ
  ticker : ℕ
  action : TradeAction
  shares : ℚ
  price : ℚ
  pnl : ℚ
deriving DecidableEq, Repr

/-- Python-dict entry of the `positions` map: `ticker -> (shares, entry_price)`.
The association list keeps Python's insertion order. -/
structure Pos where
  ticker : ℕ
  shares : ℚ
  entry_price : ℚ
deriving DecidableEq, Repr

/-- Entry of `self.equity_curve`. -/
structure EquitySnap where
  date : ℕ
  portfolio_value : ℚ
  cash : ℚ
  positions_value : ℚ
  num_positions : ℕ
deriving DecidableEq, Repr

/-- Entry of `self.positions_history` (`positions.copy()` per date). -/
structure PositionsSnap where
  date : ℕ
  positions : List Pos
deriving DecidableEq, Repr

/-- The `BacktestEngine` object: constructor parameters plus the four mutable
performance-tracking lists initialized in `__init__`. -/
structure BacktestEngine where
  initial_capital : ℚ
  commission : ℚ
  slippage : ℚ
  equity_curve : List EquitySnap
  daily_returns : List ℚ
  positions_history : List PositionsSnap
  trades : List Trade
deriving DecidableEq, Repr

/-- Freshly constructed engine (`BacktestEngine.__init__`): the four tracking
lists start empty. -/
def mkEngine (initial_capital commission slippage : ℚ) : BacktestEngine :=
  ⟨initial_capital, commission, slippage, [], [], [], []⟩

/-- One market-data row for a (date, ticker) key; only `close` is read by the
simulator. -/
structure Bar where
  ticker : ℕ
  close : ℚ
deriving DecidableEq, Repr

/-- The market-data frame grouped by its unique dates in ascending order
(the source sorts `data.index.get_level_values('date').unique()`); `bars` are
the rows of `data.loc[date]` in frame order, one per ticker. -/
structure DayData where
  date : ℕ
  bars : List Bar
deriving DecidableEq, Repr

/-- One row of the signal frame for a given date: target weight per ticker. -/
structure SigRow where
  ticker : ℕ
  weight : ℚ
deriving DecidableEq, Repr

/-- The signal frame grouped by date; `signals.loc[date]` is a `KeyError`
(→ `continue`) for dates absent from this list. -/
structure SigDay where
  date : ℕ
  rows : List SigRow
deriving DecidableEq, Repr

/-- Looks up `signals.loc[date]`. -/
def signalsFor (signals : List SigDay) (d : ℕ) : Option (List SigRow) :=
  (signals.find? (fun sd => sd.date == d)).map SigDay.rows

/-- Membership test `ticker in combined.index` / row lookup for a ticker. -/
def lookupBar (bars : List Bar) (t : ℕ) : Option Bar :=
  bars.find? (fun b => b.ticker == t)

/-- Weight of a ticker after the left join with the day's signals and
`fillna(0.0)`. -/
def sigWeight (rows : List SigRow) (t : ℕ) : ℚ :=
  ((rows.find? (fun r => r.ticker == t)).map SigRow.weight).getD 0

/-- Lookup in the `positions` dict. -/
def findPos (ps : List Pos) (t : ℕ) : Option Pos :=
  ps.find? (fun p => p.ticker == t)

/-- Python dict assignment `positions[ticker] = (shares, price)`: updates the
existing entry in place, else appends. -/
def setPos (ps : List Pos) (t : ℕ) (sh pr : ℚ) : List Pos :=
  if (findPos ps t).isSome then
    ps.map (fun p => if p.ticker == t then ⟨t, sh, pr⟩ else p)
  else ps ++ [⟨t, sh, pr⟩]

/-- Pre-rebalance valuation loop (lines 89-93 of `backtest_engine.py`): sums
`shares * close` over held tickers present in today's data; absent tickers
contribute nothing. -/
def positionsValueOn (bars : List Bar) (positions : List Pos) : ℚ :=
  (positions.map (fun p =>
    match lookupBar bars p.ticker with
    | some b => p.shares * b.close
    | none => 0)).sum

/-- Entry of `target_positions`: `ticker -> (target_shares, price)`. -/
structure Target where
  ticker : ℕ
  target_shares : ℚ
  price : ℚ
deriving DecidableEq, Repr

/-- Builds `target_positions` (lines 98-105): one entry per ticker of today's
data with joined weight `> 0`, in frame order, with
`target_shares = portfolio_value * weight / (price * (1 + slippage))`. -/
def computeTargets (slip : ℚ) (bars : List Bar) (sigrows : List SigRow)
    (portfolio_value : ℚ) : List Target :=
  bars.filterMap (fun b =>
    let w := sigWeight sigrows b.ticker
    if 0 < w then
      some ⟨b.ticker, portfolio_value * w / (b.close * (1 + slip)), b.close⟩
    else none)

/-- Membership test `ticker not in target_positions`. -/
def hasTarget (targets : List Target) (t : ℕ) : Bool :=
  targets.any (fun tg => tg.ticker == t)

/-- One iteration of the close loop (lines 108-125).  The accumulator carries
(cash, kept positions, sell trades of this date).  Note that in the source the
statement `del positions[ticker]` sits outside the `if ticker in
combined.index` guard: a held asset that is not in the target set is removed
from the positions dict even when it has no bar today, in which case no cash is
credited and no trade is logged. -/
def closeOne (comm slip : ℚ) (date : ℕ) (bars : List Bar) (targets : List Target)
    (acc : ℚ × List Pos × List Trade) (p : Pos) : ℚ × List Pos × List Trade :=
  if hasTarget targets p.ticker then (acc.1, acc.2.1 ++ [p], acc.2.2)
  else
    match lookupBar bars p.ticker with
    | some b =>
        let exit_price := b.close * (1 - slip)
        (acc.1 + p.shares * exit_price * (1 - comm), acc.2.1,
         acc.2.2 ++ [⟨date, p.ticker, .sell, p.shares, exit_price,
                      p.shares * (exit_price - p.entry_price)⟩])
    | none => (acc.1, acc.2.1, acc.2.2)

/-- The whole close loop: folds `closeOne` over the held positions in dict
order. -/
def closeAll (comm slip : ℚ) (date : ℕ) (bars : List Bar) (targets : List Target)
    (cash : ℚ) (positions : List Pos) : ℚ × List Pos × List Trade :=
  positions.foldl (closeOne comm slip date bars targets) (cash, [], [])

/-- One iteration of the open/adjust loop (lines 128-146): trades only when
`abs(shares_diff) > 0.01` (strictly), in which case cash is debited by
`shares_diff * price * (1 + slippage)` plus commission on the absolute trade
value, the position is set to the target shares with entry price reset to
today's close, and a BUY/SELL trade with zero realized P&L is logged. -/
def openAdjustOne (comm slip : ℚ) (date : ℕ)
    (acc : ℚ × List Pos × List Trade) (tg : Target) : ℚ × List Pos × List Trade :=
  let cash := acc.1
  let positions := acc.2.1
  let trades := acc.2.2
  let current_shares := ((findPos positions tg.ticker).map Pos.shares).getD 0
  let shares_diff := tg.target_shares - current_shares
  if 1 / 100 < |shares_diff| then
    let trade_value := shares_diff * tg.price * (1 + slip)
    let commission_cost := |trade_value| * comm
    (cash - (trade_value + commission_cost),
     setPos positions tg.ticker tg.target_shares tg.price,
     trades ++ [⟨date, tg.ticker, if 0 < shares_diff then .buy else .sell,
                 |shares_diff|, tg.price, 0⟩])
  else acc

/-- Body of the date loop of `BacktestEngine.run` for one processed date:
values the portfolio before trading (lines 88-95), rebalances (close loop then
open/adjust loop), appends the equity snapshot (with the pre-rebalance
`portfolio_value` and the post-trade `cash`), and for `i > 0` appends the daily
return read from `self.equity_curve[i - 1]` after the append — an out-of-range
index models Python's `IndexError`.  Returns the updated local
(cash, positions) state and the mutated engine. -/
def dayStep (day : DayData) (sigrows : List SigRow) (i : ℕ) (cash : ℚ)
    (positions : List Pos) (e : BacktestEngine) :
    Except String (ℚ × List Pos × BacktestEngine) :=
  let positions_value := positionsValueOn day.bars positions
  let portfolio_value := cash + positions_value
  let targets := computeTargets e.slippage day.bars sigrows portfolio_value
  let closed := closeAll e.commission e.slippage day.date day.bars targets cash positions
  let opened := targets.foldl (openAdjustOne e.commission e.slippage day.date)
                  (closed.1, closed.2.1, [])
  let day_trades := closed.2.2 ++ opened.2.2
  let curve' := e.equity_curve ++
    [⟨day.date, portfolio_value, opened.1, positions_value, opened.2.1.length⟩]
  if i = 0 then
    .ok (opened.1, opened.2.1,
      { e with equity_curve := curve',
               positions_history := e.positions_history ++ [⟨day.date, opened.2.1⟩],
               trades := e.trades ++ day_trades })
  else
    match curve'.get? (i - 1) with
    | none => .error "list index out of range"
    | some prev =>
        .ok (opened.1, opened.2.1,
          { e with equity_curve := curve',
                   daily_returns := e.daily_returns ++
                     [(portfolio_value - prev.portfolio_value) / prev.portfolio_value],
                   positions_history := e.positions_history ++ [⟨day.date, opened.2.1⟩],
                   trades := e.trades ++ day_trades })

/-- Main date loop of `BacktestEngine.run`.  `i` is the `enumerate` index over
the full date list (it advances even on skipped dates); `cash`/`positions` are
the local portfolio state.  A date absent from the signal frame raises
`KeyError` inside the `try`, which the source turns into `continue`.  The final
`pd.DataFrame(self.equity_curve).set_index('date')` raises a `KeyError` when no
date was ever processed. -/
def runFrom (signals : List SigDay) :
    List DayData → ℕ → ℚ → List Pos → BacktestEngine → Except String BacktestEngine
  | [], _, _, _, e =>
      if e.equity_curve.isEmpty then .error "KeyError: date" else .ok e
  | day :: rest, i, cash, positions, e =>
      match signalsFor signals day.date with
      | none => runFrom signals rest (i + 1) cash positions e
      | some sigrows =>
          match dayStep day sigrows i cash positions e with
          | .error msg => .error msg
          | .ok (cash', positions', e') =>
              runFrom signals rest (i + 1) cash' positions' e'

/-- Embedding of `BacktestEngine.run`: starts from the engine's (possibly
already populated) tracking lists with fresh local `cash = initial_capital` and
an empty `positions` dict, and returns the mutated engine.  The returned
equity frame of the source is the accumulated `equity_curve` of the result. -/
def run (e : BacktestEngine) (data : List DayData) (signals : List SigDay) :
    Except String BacktestEngine :=
  runFrom signals data 0 e.initial_capital [] e

/-! ## Metrics calculator (`BacktestEngine.get_performance_metrics`) -/

/-- Sample variance of a plain series (`pd.Series.std()` squared, `ddof = 1`);
`none` models the NaN produced for series of length at most one. -/
def sampleVarList (xs : List ℚ) : Option ℚ :=
  if xs.length ≤ 1 then none
  else
    let m := xs.sum / (xs.length : ℚ)
    some ((xs.map (fun x => (x - m) ^ 2)).sum / ((xs.length : ℚ) - 1))

/-- Running products of `(1 + returns)`, i.e. `(1 + returns).cumprod()`. -/
def cumprodAux (acc : ℚ) : List ℚ → List ℚ
  | [] => []
  | r :: rest => (acc * (1 + r)) :: cumprodAux (acc * (1 + r)) rest

/-- Tail of the expanding maximum, seeded with the running maximum so far. -/
def runningMaxAux (acc : ℚ) : List ℚ → List ℚ
  | [] => []
  | c :: rest => max acc c :: runningMaxAux (max acc c) rest

/-- Expanding maximum of a series, `cumulative.expanding().max()`. -/
def runningMax : List ℚ → List ℚ
  | [] => []
  | c :: rest => c :: runningMaxAux c rest

/-- Minimum of a series (`Series.min()`); `0` for the empty series, which the
caller never hits because the returns series is nonempty there. -/
def listMin : List ℚ → ℚ
  | [] => 0
  | x :: xs => xs.foldl min x

/-- Semantic values behind the formatted strings of the metrics dict. -/
structure Metrics where
  total_return : ℚ
  annualized_return : ℝ
  annualized_vol : Option ℝ
  sharpe : ℝ
  max_drawdown : ℚ
  win_rate : ℚ
  total_trades : ℕ
  avg_positions : ℚ
  final_value : ℚ

/-- Embedding of `BacktestEngine.get_performance_metrics`.  With no recorded
daily returns it returns the error dict `{"error": "No backtest results
available"}` before computing anything; otherwise `iloc[-1]` on the equity
frame is modelled by `getLast?`.  `annualized_vol` is `none` (NaN) when only
one return exists (pandas `std` of a singleton), in which case `NaN > 0` is
false and the Sharpe ratio falls back to `0`. -/
noncomputable def get_performance_metrics (e : BacktestEngine) :
    Except String Metrics :=
  if e.daily_returns.isEmpty then .error "No backtest results available"
  else
    match e.equity_curve.getLast? with
    | none => .error "single positional indexer is out-of-bounds"
    | some last =>
        let returns := e.daily_returns
        let total_return : ℚ := last.portfolio_value / e.initial_capital - 1
        let annualized_return : ℝ :=
          (1 + (total_return : ℝ)) ^ ((252 : ℝ) / (returns.length : ℝ)) - 1
        let annualized_vol : Option ℝ :=
          (sampleVarList returns).map (fun v => Real.sqrt (v : ℝ) * Real.sqrt 252)
        let sharpe : ℝ :=
          match annualized_vol with
          | some v => if 0 < v then annualized_return / v else 0
          | none => 0
        let cumulative := cumprodAux 1 returns
        let dd := (cumulative.zip (runningMax cumulative)).map
          (fun p => (p.1 - p.2) / p.2)
        let win_rate : ℚ :=
          if e.trades.length = 0 then 0
          else ((e.trades.filter (fun t => 0 < t.pnl)).length : ℚ) / (e.trades.length : ℚ)
        let avg_positions : ℚ :=
          ((e.equity_curve.map (fun s => (s.num_positions : ℚ))).sum) /
            (e.equity_curve.length : ℚ)
        .ok ⟨total_return, annualized_return, annualized_vol, sharpe, listMin dd,
             win_rate, e.trades.length, avg_positions, last.portfolio_value⟩

/-! ## Spec-side definitions

These definitions transcribe sentences of the specification (not the source);
they exist to be compared against the source embedding above. -/

/-- Spec-side: a strategy's entire score series pooled over all dates and
assets, with undefined (NaN) observations left out, as the spec's global mean
and standard deviation are computed over the defined scores. -/
def specPooledSeries (tab : List (Option ℚ)) : List ℚ :=
  tab.filterMap id

/-- Spec-side: the full-history mean of a strategy's score series. -/
def specGlobalMean (s : List ℚ) : ℚ :=
  s.sum / (s.length : ℚ)

/-- Spec-side: the full-history (sample) standard deviation of a strategy's
score series. -/
noncomputable def specGlobalStd (s : List ℚ) : ℝ :=
  Real.sqrt (((s.map (fun x => (x - specGlobalMean s) ^ 2)).sum /
    ((s.length : ℚ) - 1) : ℚ) : ℝ)

/-- Spec-side: a constant score series (the spec's "std = 0" case). -/
def specIsConstant (s : List ℚ) : Prop :=
  ∀ x ∈ s, ∀ y ∈ s, x = y

instance (s : List ℚ) : Decidable (specIsConstant s) := by
  unfold specIsConstant
  infer_instance

/-- Spec-side normalized score, following the spec sentence: `(score -
global_mean) / global_std` using the strategy's full-history mean and standard
deviation, with contribution `0` for a constant score series (a series with at
most one defined observation, whose sample deviation is undefined, is treated
as constant). -/
noncomputable def specNormalizedScore (tab : List (Option ℚ)) (q : ℚ) : ℝ :=
  let s := specPooledSeries tab
  if s.length ≤ 1 ∨ specIsConstant s then 0
  else ((q : ℝ) - (specGlobalMean s : ℝ)) / specGlobalStd s

/-! ## Claim statements under test

Each `claimC*Statement` formalizes a disputed claim exactly as stated, so that
a counterexample theorem can refute it. -/

/-- Conclusion block of claim C2 about the outputs of a completed run: one
daily return fewer than equity snapshots; each return computed from the
immediately preceding snapshot's recorded portfolio value; each recorded
portfolio value equal to the pre-rebalance valuation — observable as
`positions_value` (recorded pre-rebalance) plus the cash carried out of the
previous date, with the first snapshot valued at the untouched starting
capital. -/
def claimC2Holds (e' : BacktestEngine) : Prop :=
  e'.daily_returns.length + 1 = e'.equity_curve.length ∧
  (∀ j s s', e'.equity_curve[j]? = some s → e'.equity_curve[j + 1]? = some s' →
    e'.daily_returns[j]? =
      some ((s'.portfolio_value - s.portfolio_value) / s.portfolio_value) ∧
    s'.portfolio_value = s'.positions_value + s.cash) ∧
  (∀ s, e'.equity_curve[0]? = some s →
    s.portfolio_value = e'.initial_capital ∧ s.positions_value = 0)

/-- Claim C2 as stated: the recorded equity/return discipline holds for every
completed run of a freshly constructed engine. -/
def claimC2Statement : Prop :=
  ∀ ic comm slip data signals e',
    run (mkEngine ic comm slip) data signals = .ok e' → claimC2Holds e'

/-- Loop invariant of the date loop used for the amended claim C2: the
`enumerate` index `i` agrees with the number of recorded snapshots (true as
long as no date has been skipped), exactly one fewer return than snapshots has
been recorded, the previous snapshot's `cash` field equals the loop's local
`cash`, and the recorded snapshots/returns already satisfy the per-pair
equations of `claimC2Holds`. -/
def c2Inv (ic : ℚ) (i : ℕ) (cash : ℚ) (positions : List Pos)
    (e : BacktestEngine) : Prop :=
  e.initial_capital = ic ∧
  e.equity_curve.length = i ∧
  (i = 0 → e.daily_returns = [] ∧ cash = ic ∧ positions = []) ∧
  (0 < i → e.daily_returns.length + 1 = i ∧
    ∃ last, e.equity_curve[i - 1]? = some last ∧ last.cash = cash) ∧
  (∀ (j : ℕ) (s s' : EquitySnap),
    e.equity_curve[j]? = some s → e.equity_curve[j + 1]? = some s' →
    e.daily_returns[j]? =
      some ((s'.portfolio_value - s.portfolio_value) / s.portfolio_value) ∧
    s'.portfolio_value = s'.positions_value + s.cash) ∧
  (∀ s : EquitySnap, e.equity_curve[0]? = some s →
    s.portfolio_value = ic ∧ s.positions_value = 0)

/-- Claim C6 as stated: the combiner fails (with a configuration error) for
every input with `top_n_assets < 1` or an empty strategies list. -/
def claimC6Statement : Prop :=
  ∀ cfg index tables, (cfg.top_n_assets < 1 ∨ tables = []) →
    ∃ msg, generate_ensemble_signals cfg index tables = .error msg

/-- Claim C7 as stated: during rebalancing of a targeted asset, a
`|shares_diff|` strictly below the 0.01-share threshold is skipped, and
otherwise a trade is generated with the cash adjustment formula. -/
def claimC7Statement : Prop :=
  ∀ comm slip date cash positions trades (tg : Target),
    ((|tg.target_shares - ((findPos positions tg.ticker).map Pos.shares).getD 0| < 1 / 100 →
        openAdjustOne comm slip date (cash, positions, trades) tg = (cash, positions, trades)) ∧
     (¬ |tg.target_shares - ((findPos positions tg.ticker).map Pos.shares).getD 0| < 1 / 100 →
        openAdjustOne comm slip date (cash, positions, trades) tg =
          (cash - ((tg.target_shares - ((findPos positions tg.ticker).map Pos.shares).getD 0) *
                tg.price * (1 + slip) +
              |(tg.target_shares - ((findPos positions tg.ticker).map Pos.shares).getD 0) *
                tg.price * (1 + slip)| * comm),
           setPos positions tg.ticker tg.target_shares tg.price,
           trades ++ [⟨date, tg.ticker,
             if 0 < tg.target_shares - ((findPos positions tg.ticker).map Pos.shares).getD 0
             then .buy else .sell,
             |tg.target_shares - ((findPos positions tg.ticker).map Pos.shares).getD 0|,
             tg.price, 0⟩])))

/-- Claim C9 as stated: with an empty daily-returns series the metrics
calculator still reports metrics, with the annualized return falling back to
the total return. -/
def claimC9Statement : Prop :=
  ∀ e : BacktestEngine, e.daily_returns = [] →
    ∃ m, get_performance_metrics e = .ok m ∧ m.annualized_return = (m.total_return : ℝ)

/-- Claim C10 as stated: invoking `run` twice on the same engine instance with
identical inputs yields the same equity snapshot sequence and trade log both
times. -/
def claimC10Statement : Prop :=
  ∀ ic comm slip data signals e₁ e₂,
    run (mkEngine ic comm slip) data signals = .ok e₁ →
    run e₁ data signals = .ok e₂ →
    e₂.equity_curve = e₁.equity_curve ∧ e₂.trades = e₁.trades

/-! ## Concrete inputs used by witnesses and counterexamples -/

/-- Two-row, one-date index shared by the combiner witnesses. -/
def idxW : List (ℕ × ℕ) := [(0, 0), (0, 1)]

/-- One constant-score strategy column over `idxW`. -/
def tabsW : List (List (Option ℚ)) := [[some 1, some 1]]

/-- Witness configuration: `top_n_assets = 1`, equal weight. -/
def cfgW : PortfolioConfig := ⟨1, "daily", true, true⟩

/-- Configuration with the invalid `top_n_assets = 0` for the C6
counterexample. -/
def cfgC6 : PortfolioConfig := ⟨0, "daily", true, true⟩

/-- Output of the combiner on the witness input `cfgW`/`idxW`/`tabsW`. -/
noncomputable def outW : List EnsembleRow :=
  [⟨0, 0, [some 1], [some 0], 0, 1, 1, 1⟩,
   ⟨0, 1, [some 1], [some 0], 0, 2, 0, 0⟩]

/-- Output of the combiner on the C6 counterexample input (`top_n_assets = 0`
is accepted and yields zero positions and weights, not an error). -/
noncomputable def outC6 : List EnsembleRow :=
  [⟨0, 0, [some 1], [some 0], 0, 1, 0, 0⟩,
   ⟨0, 1, [some 1], [some 0], 0, 2, 0, 0⟩]

/-- Three-row, two-date index for the NaN-handling witnesses. -/
def idxN : List (ℕ × ℕ) := [(0, 0), (0, 1), (1, 0)]

/-- One strategy whose score column has a NaN warm-up value in the middle. -/
def tabsN : List (List (Option ℚ)) := [[some 1, none, some 1]]

/-- Output of the combiner on `cfgW`/`idxN`/`tabsN`: the NaN row is kept, gets
rank 2 for date 0 and zero contribution to its combined score. -/
noncomputable def outN : List EnsembleRow :=
  [⟨0, 0, [some 1], [some 0], 0, 1, 1, 1⟩,
   ⟨0, 1, [none], [some 0], 0, 2, 0, 0⟩,
   ⟨1, 0, [some 1], [some 0], 0, 1, 1, 1⟩]

/-- Market data of the C1 failing input: on date 0 only asset 0 trades (close
100); on date 1 asset 0 is absent and only asset 1 trades. -/
def dataC1 : List DayData := [⟨0, [⟨0, 100⟩]⟩, ⟨1, [⟨1, 50⟩]⟩]

/-- Signals of the C1 failing input: asset 0 gets full weight on date 0; date 1
targets nothing. -/
def sigsC1 : List SigDay := [⟨0, [⟨0, 1⟩]⟩, ⟨1, [⟨1, 0⟩]⟩]

/-- Market data of the C2 counterexample: one asset over two dates. -/
def dataC2 : List DayData := [⟨0, [⟨0, 100⟩]⟩, ⟨1, [⟨0, 110⟩]⟩]

/-- Signals of the C2 counterexample: date 0 is missing from the signal frame,
so the simulator skips it while the `enumerate` index still advances. -/
def sigsC2 : List SigDay := [⟨1, [⟨0, 0⟩]⟩]

/-- Market data of the C10 counterexample: a single date. -/
def dataC10 : List DayData := [⟨0, [⟨0, 100⟩]⟩]

/-- Signals of the C10 counterexample: full weight on the single asset. -/
def sigsC10 : List SigDay := [⟨0, [⟨0, 1⟩]⟩]

/-- Engine state after the first run on `dataC10`/`sigsC10`. -/
def eC10a : BacktestEngine :=
  ⟨1000, 0, 0, [⟨0, 1000, 0, 0, 1⟩], [], [⟨0, [⟨0, 10, 100⟩]⟩],
   [⟨0, 0, .buy, 10, 100, 0⟩]⟩

/-- Engine state after the second run on the same instance: every tracking
list holds the first run's entries followed by the second run's. -/
def eC10b : BacktestEngine :=
  ⟨1000, 0, 0, [⟨0, 1000, 0, 0, 1⟩, ⟨0, 1000, 0, 0, 1⟩], [],
   [⟨0, [⟨0, 10, 100⟩]⟩, ⟨0, [⟨0, 10, 100⟩]⟩],
   [⟨0, 0, .buy, 10, 100, 0⟩, ⟨0, 0, .buy, 10, 100, 0⟩]⟩

/-- Engine state after running on the C1 failing input: date 1's positions
snapshot is empty although no sale was logged and no cash credited. -/
def eC1 : BacktestEngine :=
  ⟨100000, 0, 0, [⟨0, 100000, 0, 0, 1⟩, ⟨1, 0, 0, 0, 0⟩], [-1],
   [⟨0, [⟨0, 1000, 100⟩]⟩, ⟨1, []⟩], [⟨0, 0, .buy, 1000, 100, 0⟩]⟩

/-- Engine state after running on the C2 counterexample input: one equity
snapshot but one daily return (of 0, computed from the snapshot itself). -/
def eC2 : BacktestEngine :=
  ⟨1000, 0, 0, [⟨1, 1000, 1000, 0, 0⟩], [0], [⟨1, []⟩], []⟩

/-! ## Counting lemmas -/

theorem pcount_le_length {α : Type} (p : α → Prop) [DecidablePred p] (l : List α) :
    pcount p l ≤ l.length := by
  induction l with
  | nil => simp [pcount]
  | cons a l ih =>
      simp only [pcount, List.length_cons]
      split <;> omega

theorem pcount_lt_length {α : Type} (p : α → Prop) [DecidablePred p] {l : List α}
    {x : α} (hx : x ∈ l) (hpx : ¬ p x) : pcount p l < l.length := by
  induction l with
  | nil => cases hx
  | cons a l ih =>
      rcases List.mem_cons.mp hx with rfl | hx'
      · have := pcount_le_length p l
        simp only [pcount, List.length_cons, if_neg hpx]
        omega
      · have := ih hx'
        simp only [pcount, List.length_cons]
        split <;> omega

theorem pcount_le_pcount {α : Type} {p q : α → Prop} [DecidablePred p] [DecidablePred q]
    {l : List α} (h : ∀ a ∈ l, p a → q a) : pcount p l ≤ pcount q l := by
  induction l with
  | nil => simp [pcount]
  | cons a l ih =>
      have ht := ih (fun b hb => h b (List.mem_cons_of_mem a hb))
      by_cases hpa : p a
      · have hqa := h a (List.mem_cons_self a l) hpa
        simp only [pcount, if_pos hpa, if_pos hqa]
        omega
      · simp only [pcount, if_neg hpa]
        split <;> omega

theorem pcount_lt_pcount {α : Type} {p q : α → Prop} [DecidablePred p] [DecidablePred q]
    {l : List α} {x : α} (h : ∀ a ∈ l, p a → q a) (hx : x ∈ l) (hqx : q x)
    (hpx : ¬ p x) : pcount p l < pcount q l := by
  induction l with
  | nil => cases hx
  | cons a l ih =>
      have hmono := pcount_le_pcount (fun b hb => h b (List.mem_cons_of_mem a hb))
      rcases List.mem_cons.mp hx with rfl | hx'
      · simp only [pcount, if_neg hpx, if_pos hqx]
        omega
      · have := ih (fun b hb => h b (List.mem_cons_of_mem a hb)) hx'
        by_cases hpa : p a
        · have hqa := h a (List.mem_cons_self a l) hpa
          simp only [pcount, if_pos hpa, if_pos hqa]
          omega
        · simp only [pcount, if_neg hpa]
          split <;> omega

theorem pcount_congr {α : Type} {p q : α → Prop} [DecidablePred p] [DecidablePred q]
    {l : List α} (h : ∀ a ∈ l, p a ↔ q a) : pcount p l = pcount q l := by
  induction l with
  | nil => rfl
  | cons a l ih =>
      have ht := ih (fun b hb => h b (List.mem_cons_of_mem a hb))
      have ha := h a (List.mem_cons_self a l)
      by_cases hpa : p a
      · simp only [pcount, if_pos hpa, if_pos (ha.mp hpa), ht]
      · simp only [pcount, if_neg hpa, if_neg (fun hq => hpa (ha.mpr hq)), ht]

theorem pcount_filter {α : Type} (p : α → Prop) [DecidablePred p] (f : α → Bool)
    (l : List α) : pcount p (l.filter f) = pcount (fun a => f a = true ∧ p a) l := by
  induction l with
  | nil => rfl
  | cons a l ih =>
      by_cases hf : f a
      · rw [List.filter_cons_of_pos hf]
        by_cases hpa : p a
        · simp only [pcount, if_pos hpa, if_pos (And.intro hf hpa), ih]
        · simp only [pcount, if_neg hpa, if_neg (fun hc : f a = true ∧ p a => hpa hc.2), ih]
      · rw [List.filter_cons_of_neg (by simpa using hf)]
        have : ¬ (f a = true ∧ p a) := fun hc => hf hc.1
        simp only [pcount, if_neg this, ih]
        omega

theorem pcount_map {α β : Type} (p : β → Prop) [DecidablePred p] (f : α → β)
    (l : List α) : pcount p (l.map f) = pcount (fun a => p (f a)) l := by
  induction l with
  | nil => rfl
  | cons a l ih => simp only [List.map_cons, pcount, ih]

theorem pcount_append {α : Type} (p : α → Prop) [DecidablePred p] (l l' : List α) :
    pcount p (l ++ l') = pcount p l + pcount p l' := by
  induction l with
  | nil => simp [pcount]
  | cons a l ih =>
      simp only [List.cons_append, pcount, List.append_eq, ih]
      omega

theorem pcount_perm {α : Type} (p : α → Prop) [DecidablePred p] {l l' : List α}
    (h : l.Perm l') : pcount p l = pcount p l' := by
  induction h with
  | nil => rfl
  | cons a _ ih => simp only [pcount, ih]
  | swap a b l => simp only [pcount]; omega
  | trans _ _ ih₁ ih₂ => exact ih₁.trans ih₂

theorem pcount_sum_ite {α : Type} (p : α → Prop) [DecidablePred p] (l : List α) :
    (l.map (fun x => if p x then (1 : ℝ) else 0)).sum = (pcount p l : ℝ) := by
  induction l with
  | nil => simp [pcount]
  | cons a l ih =>
      simp only [List.map_cons, List.sum_cons, pcount, ih]
      split <;> simp [add_comm]

/-! ## Ranking is a bijection onto 1..k per group -/

theorem rank_strict_mono {α : Type} (R : α → α → Prop) [DecidableRel R] (l : List α)
    (hirr : ∀ a ∈ l, ¬ R a a)
    (htrans : ∀ a ∈ l, ∀ b ∈ l, ∀ c ∈ l, R a b → R b c → R a c)
    {x y : α} (hx : x ∈ l) (hy : y ∈ l) (hxy : R x y) :
    pcount (fun a => R a x) l < pcount (fun a => R a y) l :=
  pcount_lt_pcount (fun a ha hax => htrans a ha x hx y hy hax hxy) hx hxy (hirr x hx)

theorem rank_map_perm {α : Type} (R : α → α → Prop) [DecidableRel R] (l : List α)
    (hnd : l.Nodup)
    (hirr : ∀ a ∈ l, ¬ R a a)
    (htrans : ∀ a ∈ l, ∀ b ∈ l, ∀ c ∈ l, R a b → R b c → R a c)
    (htot : ∀ a ∈ l, ∀ b ∈ l, a ≠ b → R a b ∨ R b a) :
    (l.map (fun x => 1 + pcount (fun y => R y x) l)).Perm
      ((List.range l.length).map (· + 1)) := by
  have hinj : ∀ x ∈ l, ∀ y ∈ l,
      1 + pcount (fun a => R a x) l = 1 + pcount (fun a => R a y) l → x = y := by
    intro x hx y hy hxy
    by_contra hne
    rcases htot x hx y hy hne with h | h
    · have := rank_strict_mono R l hirr htrans hx hy h
      omega
    · have := rank_strict_mono R l hirr htrans hy hx h
      omega
  have hnd2 : (l.map (fun x => 1 + pcount (fun y => R y x) l)).Nodup :=
    List.Nodup.map_on hinj hnd
  have hsub : (l.map (fun x => 1 + pcount (fun y => R y x) l)) ⊆
      (List.range l.length).map (· + 1) := by
    intro v hv
    rcases List.mem_map.mp hv with ⟨x, hx, rfl⟩
    refine List.mem_map.mpr ⟨pcount (fun y => R y x) l, ?_, by omega⟩
    exact List.mem_range.mpr (pcount_lt_length _ hx (hirr x hx))
  refine (hnd2.subperm hsub).perm_of_length_le ?_
  simp

/-! ## Structural lemmas about the combiner output -/

theorem beats_irrefl (a : ℕ × ℕ × ℝ) : ¬ beats a a := by
  simp [beats]

theorem beats_trans {a b c : ℕ × ℕ × ℝ} (h₁ : beats a b) (h₂ : beats b c) :
    beats a c := by
  rcases h₁ with h₁ | ⟨h₁e, h₁i⟩ <;> rcases h₂ with h₂ | ⟨h₂e, h₂i⟩
  · exact Or.inl (h₂.trans h₁)
  · exact Or.inl (h₂e ▸ h₁)
  · exact Or.inl (h₁e ▸ h₂)
  · exact Or.inr ⟨h₁e.trans h₂e, h₁i.trans h₂i⟩

theorem beats_total {a b : ℕ × ℕ × ℝ} (hne : a.1 ≠ b.1) : beats a b ∨ beats b a := by
  rcases lt_trichotomy a.2.2 b.2.2 with h | h | h
  · exact Or.inr (Or.inl h)
  · rcases Nat.lt_trichotomy a.1 b.1 with hi | hi | hi
    · exact Or.inl (Or.inr ⟨h, hi⟩)
    · exact absurd hi hne
    · exact Or.inr (Or.inr ⟨h.symm, hi⟩)
  · exact Or.inl (Or.inl h)

theorem ensembleScored_map_fst (index : List (ℕ × ℕ)) (tables : List (List (Option ℚ))) :
    (ensembleScored index tables).map Prod.fst = List.range index.length := by
  unfold ensembleScored
  rw [List.map_map]
  have h : (Prod.fst ∘ fun p : ℕ × ℕ × ℕ => (p.1, p.2.1, ensembleScoreAt tables p.1)) =
      (Prod.fst : ℕ × (ℕ × ℕ) → ℕ) := rfl
  rw [h, List.enum_map_fst]

theorem ensembleScored_nodup (index : List (ℕ × ℕ)) (tables : List (List (Option ℚ))) :
    (ensembleScored index tables).Nodup :=
  List.Nodup.of_map Prod.fst
    (by rw [ensembleScored_map_fst]; exact List.nodup_range _)

theorem ensembleScored_fst_inj (index : List (ℕ × ℕ)) (tables : List (List (Option ℚ)))
    {x y : ℕ × ℕ × ℝ} (hx : x ∈ ensembleScored index tables)
    (hy : y ∈ ensembleScored index tables) (h : x.1 = y.1) : x = y :=
  List.inj_on_of_nodup_map
    (by rw [ensembleScored_map_fst]; exact List.nodup_range _) hx hy h

theorem rankAt_eq_group (index : List (ℕ × ℕ)) (tables : List (List (Option ℚ)))
    (d : ℕ) {x : ℕ × ℕ × ℝ}
    (hx : x ∈ (ensembleScored index tables).filter (fun r => r.2.1 == d)) :
    rankAt (ensembleScored index tables) x.1 x.2.1 x.2.2 =
    1 + pcount (fun y => beats y x)
      ((ensembleScored index tables).filter (fun r => r.2.1 == d)) := by
  have hxd : x.2.1 = d := by
    have := (List.mem_filter.mp hx).2
    simpa using this
  unfold rankAt
  congr 1
  rw [pcount_filter]
  apply pcount_congr
  intro a _
  unfold beats
  constructor
  · rintro ⟨h1, h2⟩
    exact ⟨by simpa using h1.trans hxd, h2⟩
  · rintro ⟨h1, h2⟩
    exact ⟨(by simpa using h1 : a.2.1 = d).trans hxd.symm, h2⟩

theorem group_rank_perm (index : List (ℕ × ℕ)) (tables : List (List (Option ℚ)))
    (d : ℕ) :
    (((ensembleScored index tables).filter (fun r => r.2.1 == d)).map
        (fun x => 1 + pcount (fun y => beats y x)
          ((ensembleScored index tables).filter (fun r => r.2.1 == d)))).Perm
      ((List.range ((ensembleScored index tables).filter
          (fun r => r.2.1 == d)).length).map (· + 1)) := by
  apply rank_map_perm beats
  · exact (ensembleScored_nodup index tables).filter _
  · exact fun a _ => beats_irrefl a
  · exact fun a _ b _ c _ h1 h2 => beats_trans h1 h2
  · intro a ha b hb hne
    refine beats_total (fun hfst => hne ?_)
    exact ensembleScored_fst_inj index tables
      (List.mem_of_mem_filter ha) (List.mem_of_mem_filter hb) hfst

theorem ensembleRows_filter_date (cfg : PortfolioConfig) (index : List (ℕ × ℕ))
    (tables : List (List (Option ℚ))) (d : ℕ) :
    (ensembleRows cfg index tables).filter (fun r => r.date == d) =
    (index.enum.filter (fun p => p.2.1 == d)).map (ensembleRow cfg index tables) := by
  unfold ensembleRows
  rw [List.filter_map]
  rfl

theorem group_eq_map (index : List (ℕ × ℕ)) (tables : List (List (Option ℚ))) (d : ℕ) :
    (ensembleScored index tables).filter (fun r => r.2.1 == d) =
    (index.enum.filter (fun p => p.2.1 == d)).map
      (fun p => (p.1, p.2.1, ensembleScoreAt tables p.1)) := by
  unfold ensembleScored
  rw [List.filter_map]
  rfl

theorem ranks_filter_eq (cfg : PortfolioConfig) (index : List (ℕ × ℕ))
    (tables : List (List (Option ℚ))) (d : ℕ) :
    ((ensembleRows cfg index tables).filter (fun r => r.date == d)).map
        (fun r => r.rank) =
    ((ensembleScored index tables).filter (fun r => r.2.1 == d)).map
      (fun x => 1 + pcount (fun y => beats y x)
        ((ensembleScored index tables).filter (fun r => r.2.1 == d))) := by
  have haux : ∀ f : (ℕ × ℕ × ℝ) → ℕ,
      ((ensembleScored index tables).filter (fun r => r.2.1 == d)).map f =
      (index.enum.filter (fun p => p.2.1 == d)).map
        (fun p => f (p.1, p.2.1, ensembleScoreAt tables p.1)) := by
    intro f
    rw [group_eq_map, List.map_map]
    rfl
  rw [ensembleRows_filter_date, List.map_map, haux]
  apply List.map_congr_left
  intro p hp
  have hgp : (p.1, p.2.1, ensembleScoreAt tables p.1) ∈
      (ensembleScored index tables).filter (fun r => r.2.1 == d) := by
    rw [group_eq_map]
    exact List.mem_map_of_mem _ hp
  have h := rankAt_eq_group index tables d hgp
  simpa [ensembleRow] using h

theorem gen_eq_rows {cfg : PortfolioConfig} {index : List (ℕ × ℕ)}
    {tables : List (List (Option ℚ))} {out : List EnsembleRow}
    (hok : generate_ensemble_signals cfg index tables = .ok out) :
    out = ensembleRows cfg index tables := by
  by_cases h : tables.isEmpty
  · rw [generate_ensemble_signals, if_pos h] at hok
    cases hok
  · rw [generate_ensemble_signals, if_neg h] at hok
    exact (Except.ok.inj hok).symm

theorem ensembleRows_get {cfg : PortfolioConfig} {index : List (ℕ × ℕ)}
    {tables : List (List (Option ℚ))} {i : ℕ} {r : EnsembleRow}
    (h : (ensembleRows cfg index tables)[i]? = some r) :
    ∃ dt, index[i]? = some dt ∧ r = ensembleRow cfg index tables (i, dt) := by
  rw [ensembleRows, List.getElem?_map, List.getElem?_enum] at h
  cases hidx : index[i]? with
  | none => rw [hidx] at h; cases h
  | some dt =>
      rw [hidx] at h
      simp only [Option.map_some'] at h
      exact ⟨dt, rfl, (Option.some.inj h).symm⟩

theorem scored_mem {index : List (ℕ × ℕ)} {tables : List (List (Option ℚ))}
    {i : ℕ} {dt : ℕ × ℕ} (h : index[i]? = some dt) :
    (i, dt.1, ensembleScoreAt tables i) ∈ ensembleScored index tables := by
  rw [ensembleScored]
  have henum : index.enum[i]? = some (i, dt) := by
    rw [List.getElem?_enum, h]
    rfl
  have hmem : (i, dt) ∈ index.enum :=
    List.get?_mem (by rw [List.get?_eq_getElem?]; exact henum)
  exact List.mem_map.mpr ⟨(i, dt), hmem, rfl⟩

/-- C4: for every date in the combiner's output, the ranks assigned to the `k`
assets present on that date are exactly the set `{1,...,k}` with no gaps or
duplicates (stated as a permutation of `[1,...,k]`), and the order agrees with
combined score descending, ties broken by the asset's encounter order in the
input table. -/
theorem claim_C4 (cfg : PortfolioConfig) (index : List (ℕ × ℕ))
    (tables : List (List (Option ℚ))) (out : List EnsembleRow)
    (hok : generate_ensemble_signals cfg index tables = .ok out) :
    (∀ d, (((out.filter (fun r => r.date == d)).map (fun r => r.rank)).Perm
      ((List.range ((out.filter (fun r => r.date == d)).length)).map (· + 1)))) ∧
    (∀ (i₁ i₂ : ℕ) (r₁ r₂ : EnsembleRow), out[i₁]? = some r₁ → out[i₂]? = some r₂ →
      r₁.date = r₂.date →
      (r₂.combined_score < r₁.combined_score ∨
        (r₁.combined_score = r₂.combined_score ∧ i₁ < i₂)) →
      r₁.rank < r₂.rank) := by
  have hout := gen_eq_rows hok
  subst hout
  constructor
  · intro d
    rw [ranks_filter_eq]
    have hlen : ((ensembleRows cfg index tables).filter (fun r => r.date == d)).length =
        ((ensembleScored index tables).filter (fun r => r.2.1 == d)).length := by
      rw [ensembleRows_filter_date, group_eq_map, List.length_map, List.length_map]
    rw [hlen]
    exact group_rank_perm index tables d
  · intro i₁ i₂ r₁ r₂ h₁ h₂ hdate hkey
    obtain ⟨dt₁, hdt₁, rfl⟩ := ensembleRows_get h₁
    obtain ⟨dt₂, hdt₂, rfl⟩ := ensembleRows_get h₂
    have hd : dt₁.1 = dt₂.1 := hdate
    have hx₁ : ((i₁ : ℕ), dt₁.1, ensembleScoreAt tables i₁) ∈
        (ensembleScored index tables).filter (fun r => r.2.1 == dt₁.1) :=
      List.mem_filter.mpr ⟨scored_mem hdt₁, by simp⟩
    have hx₂ : ((i₂ : ℕ), dt₂.1, ensembleScoreAt tables i₂) ∈
        (ensembleScored index tables).filter (fun r => r.2.1 == dt₁.1) :=
      List.mem_filter.mpr ⟨scored_mem hdt₂, by simp [hd]⟩
    have hbeats : beats ((i₁ : ℕ), dt₁.1, ensembleScoreAt tables i₁)
        ((i₂ : ℕ), dt₂.1, ensembleScoreAt tables i₂) := hkey
    have hmono := rank_strict_mono beats
      ((ensembleScored index tables).filter (fun r => r.2.1 == dt₁.1))
      (fun a _ => beats_irrefl a)
      (fun a _ b _ c _ u v => beats_trans u v) hx₁ hx₂ hbeats
    have f₁ : (ensembleRow cfg index tables (i₁, dt₁)).rank =
        1 + pcount (fun y => beats y ((i₁ : ℕ), dt₁.1, ensembleScoreAt tables i₁))
          ((ensembleScored index tables).filter (fun r => r.2.1 == dt₁.1)) :=
      rankAt_eq_group index tables dt₁.1 hx₁
    have f₂ : (ensembleRow cfg index tables (i₂, dt₂)).rank =
        1 + pcount (fun y => beats y ((i₂ : ℕ), dt₂.1, ensembleScoreAt tables i₂))
          ((ensembleScored index tables).filter (fun r => r.2.1 == dt₁.1)) :=
      rankAt_eq_group index tables dt₁.1 hx₂
    rw [f₁, f₂]
    omega

/-! ## Evaluation of the combiner on the small witness inputs -/

theorem colMean_ww : colMean [some 1, some 1] = some 1 := by
  norm_num [colMean, List.filterMap_cons]

theorem colVar_ww : colVar [some 1, some 1] = some 0 := by
  norm_num [colVar, List.filterMap_cons]

theorem colStd_ww : colStd [some 1, some 1] = some 0 := by
  rw [colStd, colVar_ww]
  simp

theorem normalizeCol_ww : normalizeCol [some 1, some 1] = [some 0, some 0] := by
  rw [normalizeCol, colMean_ww, colStd_ww]
  norm_num

theorem ensembleScoreAt_ww (i : ℕ) : ensembleScoreAt [[some 1, some 1]] i = 0 := by
  rw [ensembleScoreAt, List.map_cons, List.map_nil, normalizeCol_ww]
  rcases i with _ | _ | i <;>
    simp [sumSkipNa, List.getD, List.filterMap_cons]

theorem ensembleScored_ww :
    ensembleScored [(0, 0), (0, 1)] [[some 1, some 1]] = [(0, 0, 0), (1, 0, 0)] := by
  rw [ensembleScored]
  norm_num [-Prod.mk_zero_zero, List.enum, List.enumFrom, ensembleScoreAt_ww]

theorem rankAt_ww0 : rankAt [(0, 0, 0), (1, 0, 0)] 0 0 0 = 1 := by
  norm_num [rankAt, pcount]

theorem rankAt_ww1 : rankAt [(0, 0, 0), (1, 0, 0)] 1 0 0 = 2 := by
  norm_num [rankAt, pcount]

theorem ensembleRows_ww : ensembleRows cfgW idxW tabsW = outW := by
  rw [ensembleRows, idxW, cfgW, tabsW, outW]
  norm_num [-Prod.mk_zero_zero, List.enum, List.enumFrom, ensembleRow, ensembleScored_ww,
    ensembleScoreAt_ww, rankAt_ww0, rankAt_ww1,
    normalizeCol_ww, List.getD]

theorem gen_cfgW_eval : generate_ensemble_signals cfgW idxW tabsW = .ok outW := by
  rw [generate_ensemble_signals, if_neg (by simp [tabsW]), ensembleRows_ww]

theorem ensembleRows_c6 : ensembleRows cfgC6 idxW tabsW = outC6 := by
  rw [ensembleRows, idxW, cfgC6, tabsW, outC6]
  norm_num [-Prod.mk_zero_zero, List.enum, List.enumFrom, ensembleRow, ensembleScored_ww,
    ensembleScoreAt_ww, rankAt_ww0, rankAt_ww1,
    normalizeCol_ww, List.getD]

theorem gen_cfgC6_eval : generate_ensemble_signals cfgC6 idxW tabsW = .ok outC6 := by
  rw [generate_ensemble_signals, if_neg (by simp [tabsW]), ensembleRows_c6]

theorem sum_map_div {α : Type} (l : List α) (f : α → ℝ) (c : ℝ) :
    (l.map (fun x => f x / c)).sum = (l.map f).sum / c := by
  induction l with
  | nil => simp
  | cons a l ih => simp [ih, add_div]

theorem pcount_range_le (k : ℕ) (N : ℤ) :
    (pcount (fun v : ℕ => (v : ℤ) ≤ N) ((List.range k).map (· + 1)) : ℤ) ≤ N ∨
    pcount (fun v : ℕ => (v : ℤ) ≤ N) ((List.range k).map (· + 1)) = 0 := by
  induction k with
  | zero => right; rfl
  | succ k ih =>
      rw [List.range_succ, List.map_append, pcount_append]
      simp only [List.map_cons, List.map_nil, pcount]
      by_cases h : ((k + 1 : ℕ) : ℤ) ≤ N
      · left
        have hlen := pcount_le_length (fun v : ℕ => (v : ℤ) ≤ N)
          ((List.range k).map (· + 1))
        rw [List.length_map, List.length_range] at hlen
        rw [if_pos h]
        omega
      · rw [if_neg h]
        rcases ih with ih | ih
        · left; simpa using ih
        · right; simpa using ih

theorem weights_filter_eq (cfg : PortfolioConfig) (index : List (ℕ × ℕ))
    (tables : List (List (Option ℚ))) (d : ℕ) (heq : cfg.equal_weight = true) :
    ((ensembleRows cfg index tables).filter (fun r => r.date == d)).map
        (fun r => r.weight) =
    ((ensembleScored index tables).filter (fun r => r.2.1 == d)).map
      (fun x => (if ((1 + pcount (fun y => beats y x)
            ((ensembleScored index tables).filter (fun r => r.2.1 == d)) : ℕ) : ℤ) ≤
            cfg.top_n_assets then (1 : ℝ) else 0) /
          ((cfg.top_n_assets : ℤ) : ℝ)) := by
  have haux : ∀ f : (ℕ × ℕ × ℝ) → ℝ,
      ((ensembleScored index tables).filter (fun r => r.2.1 == d)).map f =
      (index.enum.filter (fun p => p.2.1 == d)).map
        (fun p => f (p.1, p.2.1, ensembleScoreAt tables p.1)) := by
    intro f
    rw [group_eq_map, List.map_map]
    rfl
  rw [ensembleRows_filter_date, List.map_map, haux]
  apply List.map_congr_left
  intro p hp
  have hgp : (p.1, p.2.1, ensembleScoreAt tables p.1) ∈
      (ensembleScored index tables).filter (fun r => r.2.1 == d) := by
    rw [group_eq_map]
    exact List.mem_map_of_mem _ hp
  have h := rankAt_eq_group index tables d hgp
  show (ensembleRow cfg index tables p).weight = _
  rw [ensembleRow]
  simp only [heq, if_pos]
  rw [h]

/-- C3: in equal-weight mode with a valid `top_n_assets`, every date's target
weights sum to at most 1, and every row with a positive weight has rank at
most `top_n_assets`. -/
theorem claim_C3 (cfg : PortfolioConfig) (index : List (ℕ × ℕ))
    (tables : List (List (Option ℚ))) (out : List EnsembleRow)
    (heq : cfg.equal_weight = true) (htop : 1 ≤ cfg.top_n_assets)
    (hok : generate_ensemble_signals cfg index tables = .ok out) :
    (∀ d, ((out.filter (fun r => r.date == d)).map (fun r => r.weight)).sum ≤ 1) ∧
    (∀ r ∈ out, 0 < r.weight → (r.rank : ℤ) ≤ cfg.top_n_assets) := by
  have hout := gen_eq_rows hok
  subst hout
  constructor
  · intro d
    rw [weights_filter_eq cfg index tables d heq, sum_map_div, pcount_sum_ite]
    have hNpos : (0 : ℝ) < ((cfg.top_n_assets : ℤ) : ℝ) := by
      have : (0 : ℤ) < cfg.top_n_assets := by omega
      exact_mod_cast this
    rw [div_le_one hNpos]
    have e1 : pcount (fun x => ((1 + pcount (fun y => beats y x)
          ((ensembleScored index tables).filter (fun r => r.2.1 == d)) : ℕ) : ℤ) ≤
            cfg.top_n_assets)
          ((ensembleScored index tables).filter (fun r => r.2.1 == d))
        = pcount (fun v : ℕ => (v : ℤ) ≤ cfg.top_n_assets)
            (((ensembleScored index tables).filter (fun r => r.2.1 == d)).map
              (fun x => 1 + pcount (fun y => beats y x)
                ((ensembleScored index tables).filter (fun r => r.2.1 == d)))) :=
      (pcount_map (fun v : ℕ => (v : ℤ) ≤ cfg.top_n_assets)
        (fun x => 1 + pcount (fun y => beats y x)
          ((ensembleScored index tables).filter (fun r => r.2.1 == d)))
        ((ensembleScored index tables).filter (fun r => r.2.1 == d))).symm
    have e2 := pcount_perm (fun v : ℕ => (v : ℤ) ≤ cfg.top_n_assets)
      (group_rank_perm index tables d)
    have hcount : (pcount (fun x => ((1 + pcount (fun y => beats y x)
        ((ensembleScored index tables).filter (fun r => r.2.1 == d)) : ℕ) : ℤ) ≤
          cfg.top_n_assets)
        ((ensembleScored index tables).filter (fun r => r.2.1 == d)) : ℤ) ≤
        cfg.top_n_assets := by
      rw [e1, e2]
      rcases pcount_range_le (((ensembleScored index tables).filter
          (fun r => r.2.1 == d)).length) cfg.top_n_assets with hb | hb
      · exact hb
      · rw [hb]
        omega
    exact_mod_cast hcount
  · intro r hr hw
    rcases List.mem_map.mp hr with ⟨p, _, rfl⟩
    by_contra h
    have h' : ¬ ((rankAt (ensembleScored index tables) p.1 p.2.1
        (ensembleScoreAt tables p.1) : ℤ) ≤ cfg.top_n_assets) := h
    have : (ensembleRow cfg index tables p).weight = 0 := by
      rw [ensembleRow]
      simp only [heq, if_pos]
      rw [if_neg h']
      simp
    rw [this] at hw
    exact lt_irrefl 0 hw

/-- Witness for C4: on the concrete constant-score input the hypotheses of
`claim_C4` hold and the per-date ranks for date 0 are a permutation of
`[1, 2]`. -/
theorem claim_C4_witness :
    generate_ensemble_signals cfgW idxW tabsW = .ok outW ∧
    ((outW.filter (fun r => r.date == 0)).map (fun r => r.rank)).Perm
      ((List.range ((outW.filter (fun r => r.date == 0)).length)).map (· + 1)) :=
  ⟨gen_cfgW_eval, (claim_C4 cfgW idxW tabsW outW gen_cfgW_eval).1 0⟩

/-! ## Variance lemmas for the normalization claim -/

theorem colVar_eq_some {tab : List (Option ℚ)} {v : ℚ} (h : colVar tab = some v) :
    2 ≤ (specPooledSeries tab).length ∧
    v = ((specPooledSeries tab).map
        (fun x => (x - specGlobalMean (specPooledSeries tab)) ^ 2)).sum /
      (((specPooledSeries tab).length : ℚ) - 1) := by
  rw [colVar] at h
  by_cases hlen : (tab.filterMap id).length ≤ 1
  · rw [if_pos hlen] at h
    cases h
  · rw [if_neg hlen] at h
    refine ⟨?_, (Option.some.inj h).symm⟩
    show 2 ≤ (tab.filterMap id).length
    omega

theorem specGlobalStd_of_colVar {tab : List (Option ℚ)} {v : ℚ}
    (h : colVar tab = some v) :
    specGlobalStd (specPooledSeries tab) = Real.sqrt (v : ℝ) := by
  obtain ⟨-, hv⟩ := colVar_eq_some h
  rw [specGlobalStd, hv]

theorem colMean_of_colVar {tab : List (Option ℚ)} {v : ℚ}
    (h : colVar tab = some v) :
    colMean tab = some (specGlobalMean (specPooledSeries tab)) := by
  obtain ⟨hlen, -⟩ := colVar_eq_some h
  rw [colMean, if_neg (show ¬ (tab.filterMap id).length = 0 by
    have : 2 ≤ (tab.filterMap id).length := hlen
    omega)]
  rfl

theorem sum_sq_eq_zero_iff (l : List ℚ) (m : ℚ) :
    ((l.map (fun x => (x - m) ^ 2)).sum = 0) ↔ ∀ x ∈ l, x = m := by
  induction l with
  | nil => simp
  | cons a l ih =>
      simp only [List.map_cons, List.sum_cons, List.mem_cons]
      have h2 : (0 : ℚ) ≤ (l.map (fun x => (x - m) ^ 2)).sum := by
        apply List.sum_nonneg
        intro x hx
        rcases List.mem_map.mp hx with ⟨y, -, rfl⟩
        exact sq_nonneg _
      have h1 : (0 : ℚ) ≤ (a - m) ^ 2 := sq_nonneg _
      constructor
      · intro h
        have ha : (a - m) ^ 2 = 0 := by linarith
        have hl : (l.map (fun x => (x - m) ^ 2)).sum = 0 := by linarith
        intro x hx
        rcases hx with rfl | hx
        · exact sub_eq_zero.mp ((pow_eq_zero_iff two_ne_zero).mp ha)
        · exact ih.mp hl x hx
      · intro hall
        have ha : a = m := hall a (Or.inl rfl)
        have hl : ∀ x ∈ l, x = m := fun x hx => hall x (Or.inr hx)
        rw [ih.mpr hl, ha, sub_self]
        norm_num

theorem colVar_nonneg {tab : List (Option ℚ)} {v : ℚ} (h : colVar tab = some v) :
    0 ≤ v := by
  obtain ⟨hlen, hv⟩ := colVar_eq_some h
  rw [hv]
  apply div_nonneg
  · apply List.sum_nonneg
    intro x hx
    rcases List.mem_map.mp hx with ⟨y, -, rfl⟩
    exact sq_nonneg _
  · have h2 : (2 : ℚ) ≤ ((specPooledSeries tab).length : ℚ) := by exact_mod_cast hlen
    linarith

theorem colVar_zero_iff_const {tab : List (Option ℚ)} {v : ℚ}
    (h : colVar tab = some v) :
    v = 0 ↔ specIsConstant (specPooledSeries tab) := by
  obtain ⟨hlen, hv⟩ := colVar_eq_some h
  have hlenq : (2 : ℚ) ≤ ((specPooledSeries tab).length : ℚ) := by exact_mod_cast hlen
  have hden : (((specPooledSeries tab).length : ℚ) - 1) ≠ 0 := by linarith
  constructor
  · intro h0
    rw [hv] at h0
    rcases div_eq_zero_iff.mp h0 with hnum | hbad
    · have hall := (sum_sq_eq_zero_iff _ _).mp hnum
      intro x hx y hy
      rw [hall x hx, hall y hy]
    · exact absurd hbad hden
  · intro hc
    have hne : specPooledSeries tab ≠ [] := by
      intro he
      rw [he] at hlen
      simp at hlen
    obtain ⟨c, hcmem⟩ := List.exists_mem_of_ne_nil _ hne
    have hallc : ∀ x ∈ specPooledSeries tab, x = c := fun x hx => hc x hx c hcmem
    have hlen0 : ((specPooledSeries tab).length : ℚ) ≠ 0 := by linarith
    have hmean : specGlobalMean (specPooledSeries tab) = c := by
      rw [specGlobalMean, List.sum_eq_card_nsmul _ c hallc, nsmul_eq_mul,
        mul_comm, mul_div_assoc, div_self hlen0, mul_one]
    have hzero : ((specPooledSeries tab).map
        (fun x => (x - specGlobalMean (specPooledSeries tab)) ^ 2)).sum = 0 :=
      (sum_sq_eq_zero_iff _ _).mpr (fun x hx => by rw [hmean]; exact hallc x hx)
    rw [hv, hzero, zero_div]

theorem getElem?_eq_some_of_getD {tab : List (Option ℚ)} {i : ℕ} {q : ℚ}
    (hq : tab.getD i none = some q) : tab[i]? = some (some q) := by
  rw [List.getD_eq_getElem?_getD] at hq
  cases htabi : tab[i]? with
  | none => rw [htabi] at hq; cases hq
  | some o =>
      rw [htabi] at hq
      rw [Option.getD_some] at hq
      rw [hq]

/-- C5: every strategy column is normalized with the mean and standard
deviation of that strategy's entire pooled score series, producing
`(score - global_mean) / global_std`, and a constant score series contributes
`0` for every observation — stated as agreement, at every defined score, with
the spec-side `specNormalizedScore` built from the pooled series. -/
theorem claim_C5 (cfg : PortfolioConfig) (index : List (ℕ × ℕ))
    (tables : List (List (Option ℚ))) (out : List EnsembleRow)
    (hok : generate_ensemble_signals cfg index tables = .ok out) :
    ∀ (t i : ℕ) (tab : List (Option ℚ)) (r : EnsembleRow) (q : ℚ),
      tables[t]? = some tab → out[i]? = some r → tab.getD i none = some q →
      r.norm_scores[t]? = some (some (specNormalizedScore tab q)) := by
  have hout := gen_eq_rows hok
  subst hout
  intro t i tab r q htab hr hq
  obtain ⟨dt, hdt, rfl⟩ := ensembleRows_get hr
  have h1 : (ensembleRow cfg index tables (i, dt)).norm_scores[t]? =
      some ((normalizeCol tab).getD i none) := by
    show ((tables.map normalizeCol).map (fun tt => tt.getD i none))[t]? = _
    rw [List.getElem?_map, List.getElem?_map, htab]
    rfl
  rw [h1]
  congr 1
  have hq' : tab[i]? = some (some q) := getElem?_eq_some_of_getD hq
  have hmemq : q ∈ tab.filterMap id := by
    refine List.mem_filterMap.mpr ⟨some q, ?_, rfl⟩
    exact List.get?_mem (by rw [List.get?_eq_getElem?]; exact hq')
  cases hm : colMean tab with
  | none =>
      exfalso
      rw [colMean] at hm
      by_cases hz : (tab.filterMap id).length = 0
      · rw [List.length_eq_zero] at hz
        rw [hz] at hmemq
        cases hmemq
      · rw [if_neg hz] at hm
        cases hm
  | some m =>
      cases hs : colStd tab with
      | none =>
          have hvar : colVar tab = none := by
            rw [colStd] at hs
            exact Option.map_eq_none'.mp hs
          have hlen1 : (tab.filterMap id).length ≤ 1 := by
            by_contra hlen
            rw [colVar, if_neg hlen] at hvar
            cases hvar
          have hnorm : normalizeCol tab = tab.map (fun _ => some (0 : ℝ)) := by
            rw [normalizeCol, hm, hs]
          rw [hnorm, List.getD_eq_getElem?_getD, List.getElem?_map, hq']
          rw [specNormalizedScore,
            if_pos (show (specPooledSeries tab).length ≤ 1 ∨
              specIsConstant (specPooledSeries tab) from Or.inl hlen1)]
          rfl
      | some s =>
          obtain ⟨v, hv, hsv⟩ : ∃ v, colVar tab = some v ∧ s = Real.sqrt (v : ℝ) := by
            rw [colStd] at hs
            rcases Option.map_eq_some'.mp hs with ⟨v, hv, hsv⟩
            exact ⟨v, hv, hsv.symm⟩
          by_cases hpos : 0 < s
          · have hnorm : normalizeCol tab =
                tab.map (Option.map (fun x : ℚ => ((x : ℝ) - (m : ℝ)) / s)) := by
              rw [normalizeCol, hm, hs]
              exact if_pos hpos
            have hvpos : 0 < v := by
              rw [hsv] at hpos
              exact_mod_cast Real.sqrt_pos.mp hpos
            have hlen2 := (colVar_eq_some hv).1
            have hnconst : ¬ specIsConstant (specPooledSeries tab) := by
              intro hc
              have h0 := (colVar_zero_iff_const hv).mpr hc
              rw [h0] at hvpos
              exact lt_irrefl 0 hvpos
            have hm' : m = specGlobalMean (specPooledSeries tab) := by
              have hcm := colMean_of_colVar hv
              rw [hm] at hcm
              exact Option.some.inj hcm
            rw [hnorm, List.getD_eq_getElem?_getD, List.getElem?_map, hq']
            rw [specNormalizedScore]
            rw [if_neg (by
              push_neg
              constructor
              · show 1 < (specPooledSeries tab).length
                have h2 : 2 ≤ (specPooledSeries tab).length := hlen2
                omega
              · exact hnconst)]
            rw [Option.map_some', Option.getD_some, Option.map_some']
            congr 1
            rw [hm', specGlobalStd_of_colVar hv, hsv]
          · have hnorm : normalizeCol tab = tab.map (fun _ => some (0 : ℝ)) := by
              rw [normalizeCol, hm, hs]
              exact if_neg hpos
            have hv0 : v = 0 := by
              have hnn := colVar_nonneg hv
              have hsnn : (0 : ℝ) ≤ Real.sqrt (v : ℝ) := Real.sqrt_nonneg _
              have hs0 : Real.sqrt (v : ℝ) = 0 := by
                rw [hsv] at hpos
                rcases lt_or_eq_of_le hsnn with hlt | heq
                · exact absurd hlt hpos
                · exact heq.symm
              by_contra hne
              have hvp : (0 : ℝ) < (v : ℝ) := by
                have : 0 < v := lt_of_le_of_ne hnn (Ne.symm hne)
                exact_mod_cast this
              have hc := Real.sqrt_pos.mpr hvp
              rw [hs0] at hc
              exact lt_irrefl 0 hc
            have hconst := (colVar_zero_iff_const hv).mp hv0
            rw [hnorm, specNormalizedScore, if_pos (Or.inr hconst)]
            rw [List.getD_eq_getElem?_getD, List.getElem?_map, hq']
            rfl

theorem sumSkipNa_eq_sum_getD (l : List (Option ℝ)) :
    sumSkipNa l = (l.map (fun v => v.getD 0)).sum := by
  induction l with
  | nil => rfl
  | cons a l ih =>
      cases a with
      | none => simpa [sumSkipNa, List.filterMap_cons] using ih
      | some x => simp [sumSkipNa, List.filterMap_cons] at ih ⊢; rw [ih]

theorem normalizeCol_getD_nan {tab : List (Option ℚ)} {i : ℕ}
    (h : tab.getD i none = none) :
    ((normalizeCol tab).getD i none).getD 0 = (0 : ℝ) := by
  rw [List.getD_eq_getElem?_getD] at h
  cases hm : colMean tab with
  | none =>
      have hnorm : normalizeCol tab = tab.map (fun _ => some (0 : ℝ)) := by
        rw [normalizeCol, hm]
      rw [hnorm, List.getD_eq_getElem?_getD, List.getElem?_map]
      cases tab[i]? <;> simp
  | some m =>
      cases hs : colStd tab with
      | none =>
          have hnorm : normalizeCol tab = tab.map (fun _ => some (0 : ℝ)) := by
            rw [normalizeCol, hm, hs]
          rw [hnorm, List.getD_eq_getElem?_getD, List.getElem?_map]
          cases tab[i]? <;> simp
      | some s =>
          by_cases hpos : 0 < s
          · have hnorm : normalizeCol tab =
                tab.map (Option.map (fun x : ℚ => ((x : ℝ) - (m : ℝ)) / s)) := by
              rw [normalizeCol, hm, hs]
              exact if_pos hpos
            rw [hnorm, List.getD_eq_getElem?_getD, List.getElem?_map]
            cases htabi : tab[i]? with
            | none => simp
            | some o =>
                rw [htabi, Option.getD_some] at h
                subst h
                simp
          · have hnorm : normalizeCol tab = tab.map (fun _ => some (0 : ℝ)) := by
              rw [normalizeCol, hm, hs]
              exact if_neg hpos
            rw [hnorm, List.getD_eq_getElem?_getD, List.getElem?_map]
            cases tab[i]? <;> simp

/-- C8: NaN/undefined warm-up scores are zero contribution, not dropped rows:
the output keeps exactly the input (date, asset) index, each row's combined
score is the sum of the per-strategy contributions with NaN contributing `0`,
and every row (NaN rows included) still receives a rank and a weight. -/
theorem claim_C8 (cfg : PortfolioConfig) (index : List (ℕ × ℕ))
    (tables : List (List (Option ℚ))) (out : List EnsembleRow)
    (hok : generate_ensemble_signals cfg index tables = .ok out) :
    out.map (fun r => (r.date, r.ticker)) = index ∧
    ∀ (i : ℕ) (r : EnsembleRow), out[i]? = some r →
      (r.combined_score = ((r.norm_scores.map (fun v : Option ℝ => v.getD 0)).sum) ∧
       (∀ t : ℕ, r.raw_scores[t]? = some none →
         (r.norm_scores[t]?.map (fun v : Option ℝ => v.getD 0)) = some 0) ∧
       1 ≤ r.rank) := by
  have hout := gen_eq_rows hok
  subst hout
  constructor
  · rw [ensembleRows, List.map_map]
    have hcomp : ((fun r : EnsembleRow => (r.date, r.ticker)) ∘
        ensembleRow cfg index tables) = Prod.snd := rfl
    rw [hcomp, List.enum_map_snd]
  · intro i r hr
    obtain ⟨dt, hdt, rfl⟩ := ensembleRows_get hr
    refine ⟨?_, ?_, ?_⟩
    · exact sumSkipNa_eq_sum_getD _
    · intro t hraw
      have hraw' : ((tables.map (fun tt => tt.getD i none))[t]? : Option (Option ℚ)) =
          some none := hraw
      rw [List.getElem?_map] at hraw'
      rcases Option.map_eq_some'.mp hraw' with ⟨tab, htab, hnan⟩
      have h1 : (ensembleRow cfg index tables (i, dt)).norm_scores[t]? =
          some ((normalizeCol tab).getD i none) := by
        show ((tables.map normalizeCol).map (fun tt => tt.getD i none))[t]? = _
        rw [List.getElem?_map, List.getElem?_map, htab]
        rfl
      rw [h1, Option.map_some']
      rw [normalizeCol_getD_nan hnan]
    · exact Nat.le_add_right 1 _

theorem colMean_nn : colMean [some 1, none, some 1] = some 1 := by
  norm_num [colMean, List.filterMap_cons]

theorem colVar_nn : colVar [some 1, none, some 1] = some 0 := by
  norm_num [colVar, List.filterMap_cons]

theorem colStd_nn : colStd [some 1, none, some 1] = some 0 := by
  rw [colStd, colVar_nn]
  simp

theorem normalizeCol_nn :
    normalizeCol [some 1, none, some 1] = [some 0, some 0, some 0] := by
  rw [normalizeCol, colMean_nn, colStd_nn]
  norm_num

theorem ensembleScoreAt_nn (i : ℕ) :
    ensembleScoreAt [[some 1, none, some 1]] i = 0 := by
  rw [ensembleScoreAt, List.map_cons, List.map_nil, normalizeCol_nn]
  rcases i with _ | _ | _ | i <;>
    simp [sumSkipNa, List.getD, List.filterMap_cons]

theorem ensembleScored_nn :
    ensembleScored [(0, 0), (0, 1), (1, 0)] [[some 1, none, some 1]] =
      [(0, 0, 0), (1, 0, 0), (2, 1, 0)] := by
  rw [ensembleScored]
  norm_num [-Prod.mk_zero_zero, List.enum, List.enumFrom, ensembleScoreAt_nn]

theorem rankAt_nn0 : rankAt [(0, 0, 0), (1, 0, 0), (2, 1, 0)] 0 0 0 = 1 := by
  norm_num [rankAt, pcount]

theorem rankAt_nn1 : rankAt [(0, 0, 0), (1, 0, 0), (2, 1, 0)] 1 0 0 = 2 := by
  norm_num [rankAt, pcount]

theorem rankAt_nn2 : rankAt [(0, 0, 0), (1, 0, 0), (2, 1, 0)] 2 1 0 = 1 := by
  norm_num [rankAt, pcount]

theorem ensembleRows_nn : ensembleRows cfgW idxN tabsN = outN := by
  rw [ensembleRows, idxN, cfgW, tabsN, outN]
  norm_num [-Prod.mk_zero_zero, List.enum, List.enumFrom, ensembleRow,
    ensembleScored_nn, ensembleScoreAt_nn, rankAt_nn0, rankAt_nn1, rankAt_nn2,
    normalizeCol_nn, List.getD]

theorem gen_nn_eval : generate_ensemble_signals cfgW idxN tabsN = .ok outN := by
  rw [generate_ensemble_signals, if_neg (by simp [tabsN]), ensembleRows_nn]

/-- Witness for C3: on the concrete input the hypotheses of `claim_C3` hold
and date 0's weights sum to at most 1. -/
theorem claim_C3_witness :
    (cfgW.equal_weight = true ∧ 1 ≤ cfgW.top_n_assets ∧
      generate_ensemble_signals cfgW idxW tabsW = .ok outW) ∧
    ((outW.filter (fun r => r.date == 0)).map (fun r => r.weight)).sum ≤ 1 :=
  ⟨⟨rfl, by norm_num [cfgW], gen_cfgW_eval⟩,
   (claim_C3 cfgW idxW tabsW outW rfl (by norm_num [cfgW]) gen_cfgW_eval).1 0⟩

/-- Witness for C5: on the concrete input with a NaN warm-up entry the
hypotheses of `claim_C5` hold, and row 0's normalized value for strategy 0
agrees with the spec-side pooled normalization. -/
theorem claim_C5_witness :
    generate_ensemble_signals cfgW idxN tabsN = .ok outN ∧
    (⟨0, 0, [some 1], [some 0], 0, 1, 1, 1⟩ : EnsembleRow).norm_scores[0]? =
      some (some (specNormalizedScore [some 1, none, some 1] 1)) :=
  ⟨gen_nn_eval,
   claim_C5 cfgW idxN tabsN outN gen_nn_eval 0 0 [some 1, none, some 1]
     ⟨0, 0, [some 1], [some 0], 0, 1, 1, 1⟩ 1 rfl rfl rfl⟩

/-- Witness for C8: on the NaN-containing input the hypotheses of `claim_C8`
hold; the output index equals the input index and the NaN entry of row 1
contributes zero. -/
theorem claim_C8_witness :
    generate_ensemble_signals cfgW idxN tabsN = .ok outN ∧
    outN.map (fun r => (r.date, r.ticker)) = idxN ∧
    ((⟨0, 1, [none], [some 0], 0, 2, 0, 0⟩ : EnsembleRow).norm_scores[0]?.map
      (fun v : Option ℝ => v.getD 0)) = some 0 :=
  ⟨gen_nn_eval, (claim_C8 cfgW idxN tabsN outN gen_nn_eval).1,
   ((claim_C8 cfgW idxN tabsN outN gen_nn_eval).2 1
     ⟨0, 1, [none], [some 0], 0, 2, 0, 0⟩ rfl).2.1 0 rfl⟩

/-! ## Structural lemmas about the simulator -/

theorem dayStep_ok {day : DayData} {sigrows : List SigRow} {i : ℕ} {cash : ℚ}
    {positions : List Pos} {e : BacktestEngine} {c' : ℚ} {p' : List Pos}
    {e' : BacktestEngine}
    (h : dayStep day sigrows i cash positions e = .ok (c', p', e')) :
    e'.initial_capital = e.initial_capital ∧
    e'.equity_curve = e.equity_curve ++
      [⟨day.date, cash + positionsValueOn day.bars positions, c',
        positionsValueOn day.bars positions, p'.length⟩] ∧
    ((i = 0 ∧ e'.daily_returns = e.daily_returns) ∨
     (i ≠ 0 ∧ ∃ prev, e'.equity_curve.get? (i - 1) = some prev ∧
        e'.daily_returns = e.daily_returns ++
          [((cash + positionsValueOn day.bars positions) - prev.portfolio_value) /
            prev.portfolio_value])) ∧
    (∃ ps, e'.positions_history = e.positions_history ++ ps) ∧
    (∃ ts, e'.trades = e.trades ++ ts) := by
  simp only [dayStep] at h
  split at h
  next hi =>
    have h' := Except.ok.inj h
    rw [Prod.mk.injEq, Prod.mk.injEq] at h'
    obtain ⟨h1, h2, h3⟩ := h'
    subst h1
    subst h2
    subst h3
    exact ⟨rfl, rfl, Or.inl ⟨hi, rfl⟩, ⟨_, rfl⟩, ⟨_, rfl⟩⟩
  next hi =>
    split at h
    next => cases h
    next prev hprev =>
      have h' := Except.ok.inj h
      rw [Prod.mk.injEq, Prod.mk.injEq] at h'
      obtain ⟨h1, h2, h3⟩ := h'
      subst h1
      subst h2
      subst h3
      exact ⟨rfl, rfl, Or.inr ⟨hi, prev, hprev, rfl⟩, ⟨_, rfl⟩, ⟨_, rfl⟩⟩

theorem run_eC10_once : run (mkEngine 1000 0 0) dataC10 sigsC10 = .ok eC10a := by
  norm_num [run, runFrom, dayStep, mkEngine, dataC10, sigsC10, eC10a, signalsFor,
    computeTargets, sigWeight, closeAll, closeOne, openAdjustOne,
    positionsValueOn, lookupBar, hasTarget, findPos, setPos, List.find?,
    List.filterMap_cons, List.foldl_cons, List.foldl_nil]

theorem run_eC10_twice : run eC10a dataC10 sigsC10 = .ok eC10b := by
  norm_num [run, runFrom, dayStep, eC10a, eC10b, dataC10, sigsC10, signalsFor,
    computeTargets, sigWeight, closeAll, closeOne, openAdjustOne,
    positionsValueOn, lookupBar, hasTarget, findPos, setPos, List.find?,
    List.filterMap_cons, List.foldl_cons, List.foldl_nil]

theorem dayStepC1_0 :
    dayStep ⟨0, [⟨0, 100⟩]⟩ [⟨0, 1⟩] 0 100000 []
      (⟨100000, 0, 0, [], [], [], []⟩ : BacktestEngine) =
      .ok (0, [⟨0, 1000, 100⟩],
        ⟨100000, 0, 0, [⟨0, 100000, 0, 0, 1⟩], [], [⟨0, [⟨0, 1000, 100⟩]⟩],
         [⟨0, 0, .buy, 1000, 100, 0⟩]⟩) := by
  norm_num [dayStep, computeTargets, sigWeight, closeAll, closeOne,
    openAdjustOne, positionsValueOn, lookupBar, hasTarget, findPos, setPos,
    List.find?, List.filterMap_cons, List.foldl_cons, List.foldl_nil]

theorem dayStepC1_1 :
    dayStep ⟨1, [⟨1, 50⟩]⟩ [⟨1, 0⟩] 1 0 [⟨0, 1000, 100⟩]
      (⟨100000, 0, 0, [⟨0, 100000, 0, 0, 1⟩], [], [⟨0, [⟨0, 1000, 100⟩]⟩],
        [⟨0, 0, .buy, 1000, 100, 0⟩]⟩ : BacktestEngine) =
      .ok (0, [], eC1) := by
  norm_num [dayStep, eC1, computeTargets, sigWeight, closeAll, closeOne,
    openAdjustOne, positionsValueOn, lookupBar, hasTarget, findPos, setPos,
    List.find?, List.filterMap_cons, List.foldl_cons, List.foldl_nil, List.get?]
  simp

theorem run_eC1 : run (mkEngine 100000 0 0) dataC1 sigsC1 = .ok eC1 := by
  have hs0 : signalsFor sigsC1 0 = some [⟨0, 1⟩] := by
    simp [signalsFor, sigsC1, List.find?]
  have hs1 : signalsFor sigsC1 1 = some [⟨1, 0⟩] := by
    simp [signalsFor, sigsC1, List.find?]
  simp only [run, dataC1, mkEngine, runFrom, hs0, hs1, dayStepC1_0]
  rw [dayStepC1_1]
  simp [eC1]

theorem dayStepC2_1 :
    dayStep ⟨1, [⟨0, 110⟩]⟩ [⟨0, 0⟩] 1 1000 []
      (⟨1000, 0, 0, [], [], [], []⟩ : BacktestEngine) =
      .ok (1000, [], eC2) := by
  norm_num [dayStep, eC2, computeTargets, sigWeight, closeAll, closeOne,
    openAdjustOne, positionsValueOn, lookupBar, hasTarget, findPos, setPos,
    List.find?, List.filterMap_cons, List.foldl_cons, List.foldl_nil, List.get?]

theorem run_eC2 : run (mkEngine 1000 0 0) dataC2 sigsC2 = .ok eC2 := by
  have hs0 : signalsFor sigsC2 0 = none := by
    simp [signalsFor, sigsC2, List.find?]
  have hs1 : signalsFor sigsC2 1 = some [⟨0, 0⟩] := by
    simp [signalsFor, sigsC2, List.find?]
  simp only [run, dataC2, mkEngine, runFrom, hs0, hs1]
  rw [dayStepC2_1]
  simp [eC2]

theorem runFrom_extends (signals : List SigDay) (days : List DayData) :
    ∀ (i : ℕ) (cash : ℚ) (positions : List Pos) (e e' : BacktestEngine),
      runFrom signals days i cash positions e = .ok e' →
      ∃ cs rs ps ts, e'.equity_curve = e.equity_curve ++ cs ∧
        e'.daily_returns = e.daily_returns ++ rs ∧
        e'.positions_history = e.positions_history ++ ps ∧
        e'.trades = e.trades ++ ts := by
  induction days with
  | nil =>
      intro i cash positions e e' h
      rw [runFrom] at h
      split at h
      · cases h
      · have he := Except.ok.inj h
        subst he
        exact ⟨[], [], [], [], by simp, by simp, by simp, by simp⟩
  | cons day rest ih =>
      intro i cash positions e e' h
      rw [runFrom] at h
      split at h
      · exact ih _ _ _ _ _ h
      next sigrows hsig =>
        split at h
        · cases h
        next c' p' e₂ hstep =>
          obtain ⟨cs, rs, ps, ts, hc, hr, hp, ht⟩ := ih _ _ _ _ _ h
          obtain ⟨-, hc2, hr2or, ⟨ps2, hp2⟩, ⟨ts2, ht2⟩⟩ := dayStep_ok hstep
          obtain ⟨rs2, hr2⟩ : ∃ rs2, e₂.daily_returns = e.daily_returns ++ rs2 := by
            rcases hr2or with ⟨-, h0⟩ | ⟨-, prev, -, h1⟩
            · exact ⟨[], by simp [h0]⟩
            · exact ⟨_, h1⟩
          refine ⟨[⟨day.date, cash + positionsValueOn day.bars positions, c',
              positionsValueOn day.bars positions, p'.length⟩] ++ cs,
            rs2 ++ rs, ps2 ++ ps, ts2 ++ ts, ?_, ?_, ?_, ?_⟩
          · rw [hc, hc2, List.append_assoc]
          · rw [hr, hr2, List.append_assoc]
          · rw [hp, hp2, List.append_assoc]
          · rw [ht, ht2, List.append_assoc]

theorem c2Inv_step {ic : ℚ} {day : DayData} {sigrows : List SigRow} {i : ℕ}
    {cash : ℚ} {positions : List Pos} {e : BacktestEngine} {c' : ℚ}
    {p' : List Pos} {e' : BacktestEngine}
    (hinv : c2Inv ic i cash positions e)
    (h : dayStep day sigrows i cash positions e = .ok (c', p', e')) :
    c2Inv ic (i + 1) c' p' e' := by
  obtain ⟨hic, hlen, h0, hpos, hpair, hfst⟩ := hinv
  obtain ⟨hic', hcurve, hret, -, -⟩ := dayStep_ok h
  refine ⟨hic'.trans hic, ?_, ?_, ?_, ?_, ?_⟩
  · rw [hcurve]
    simp [hlen]
  · intro h'
    exact absurd h' (Nat.succ_ne_zero i)
  · intro hι
    constructor
    · rcases hret with ⟨hi0, hr⟩ | ⟨hine, prev, hprev, hr⟩
      · subst hi0
        rw [hr, (h0 rfl).1]
        simp
      · rw [hr]
        have := (hpos (Nat.pos_of_ne_zero hine)).1
        simp only [List.length_append, List.length_cons, List.length_nil]
        omega
    · refine ⟨⟨day.date, cash + positionsValueOn day.bars positions, c',
        positionsValueOn day.bars positions, p'.length⟩, ?_, rfl⟩
      rw [hcurve]
      have hii : i + 1 - 1 = e.equity_curve.length := by omega
      rw [hii]
      exact List.getElem?_concat_length _ _
  · intro j s s' hs hs'
    rw [hcurve] at hs hs'
    rcases Nat.lt_trichotomy (j + 1) i with hlt | heq | hgt
    · have hjlt : j < e.equity_curve.length := by omega
      have hj1lt : j + 1 < e.equity_curve.length := by omega
      rw [List.getElem?_append_left hjlt] at hs
      rw [List.getElem?_append_left hj1lt] at hs'
      have hp := hpair j s s' hs hs'
      have hipos : 0 < i := by omega
      have hjret : j < e.daily_returns.length := by
        have := (hpos hipos).1
        omega
      constructor
      · rcases hret with ⟨hi0, hr⟩ | ⟨hine, prev, hprev, hr⟩
        · rw [hr]; exact hp.1
        · rw [hr, List.getElem?_append_left hjret]; exact hp.1
      · exact hp.2
    · have hipos : 0 < i := by omega
      rcases hret with ⟨hi0, hr⟩ | ⟨hine, prev, hprev, hr⟩
      · omega
      · have hjlen : j < e.equity_curve.length := by omega
        rw [List.getElem?_append_left hjlen] at hs
        have hs'eq : s' = ⟨day.date, cash + positionsValueOn day.bars positions, c',
            positionsValueOn day.bars positions, p'.length⟩ := by
          have hi1 : j + 1 = e.equity_curve.length := by omega
          rw [hi1, List.getElem?_concat_length] at hs'
          exact (Option.some.inj hs').symm
        rw [hcurve, List.get?_eq_getElem?] at hprev
        have hi1 : i - 1 = j := by omega
        rw [hi1, List.getElem?_append_left hjlen, hs] at hprev
        have hps : prev = s := Option.some.inj hprev.symm
        have hlast := (hpos hipos).2
        obtain ⟨last, hlastget, hlastcash⟩ := hlast
        rw [hi1, hs] at hlastget
        have hls : last = s := Option.some.inj hlastget.symm
        rw [hls] at hlastcash
        constructor
        · rw [hr]
          have hjret : j = e.daily_returns.length := by
            have := (hpos hipos).1
            omega
          rw [hjret, List.getElem?_concat_length, hps, hs'eq]
        · rw [hs'eq, ← hlastcash]
          simp [add_comm]
    · have hout : (e.equity_curve ++
          [(⟨day.date, cash + positionsValueOn day.bars positions, c',
            positionsValueOn day.bars positions, p'.length⟩ : EquitySnap)]).length ≤ j + 1 := by
        simp [hlen]
        omega
      rw [List.getElem?_eq_none hout] at hs'
      cases hs'
  · intro s hs
    rw [hcurve] at hs
    rcases Nat.eq_zero_or_pos i with hi0 | hipos
    · have hnil : e.equity_curve = [] := List.length_eq_zero.mp (by omega)
      rw [hnil] at hs
      simp at hs
      obtain ⟨hc0, hp0⟩ := (h0 hi0).2
      rw [← hs]
      subst hc0
      subst hp0
      constructor
      · simp [positionsValueOn]
      · simp [positionsValueOn]
    · have h0lt : 0 < e.equity_curve.length := by omega
      rw [List.getElem?_append_left h0lt] at hs
      exact hfst s hs

theorem runFrom_c2 {signals : List SigDay} {ic : ℚ} :
    ∀ (days : List DayData) (i : ℕ) (cash : ℚ) (positions : List Pos)
      (e e' : BacktestEngine),
      (∀ day ∈ days, (signalsFor signals day.date).isSome) →
      c2Inv ic i cash positions e →
      runFrom signals days i cash positions e = .ok e' →
      (∃ i' cash' positions', c2Inv ic i' cash' positions' e') ∧
        e'.equity_curve ≠ [] := by
  intro days
  induction days with
  | nil =>
      intro i cash positions e e' hall hinv h
      rw [runFrom] at h
      split at h
      · cases h
      next hne =>
        have he := Except.ok.inj h
        subst he
        exact ⟨⟨i, cash, positions, hinv⟩, by simpa [List.isEmpty_iff] using hne⟩
  | cons day rest ih =>
      intro i cash positions e e' hall hinv h
      rw [runFrom] at h
      obtain ⟨sigrows, hsig⟩ :=
        Option.isSome_iff_exists.mp (hall day (List.mem_cons_self day rest))
      simp only [hsig] at h
      split at h
      next => cases h
      next c₁ p₁ e₁ hstep =>
        exact ih (i + 1) c₁ p₁ e₁ e'
          (fun d hd => hall d (List.mem_cons_of_mem day hd))
          (c2Inv_step hinv hstep) h

/-- **C2** (amended): on a freshly constructed engine, *provided every date of
the market data is present in the signal frame* (so that no date is skipped and
the `enumerate` index stays aligned with the recorded equity curve), every
completed run satisfies the claimed equity/return discipline: each snapshot's
`portfolio_value` is the pre-rebalance valuation `cash + Σ shares·close` (the
pair equation `pv' = positions_value' + cash` against the previous snapshot's
recorded post-trade cash), each daily return is the simple return from the
immediately preceding snapshot's recorded `portfolio_value`, no return is
recorded for the first date, and the first snapshot records the initial
capital.  Without the no-skip hypothesis the claim is false: the source reads
`self.equity_curve[i-1]` with the `enumerate` index `i`, which desynchronizes
from the recorded curve once a date is skipped (see the counterexample). -/
theorem claim_C2 (ic comm slip : ℚ) (data : List DayData)
    (signals : List SigDay) (e' : BacktestEngine)
    (hall : ∀ day ∈ data, (signalsFor signals day.date).isSome)
    (h : run (mkEngine ic comm slip) data signals = .ok e') :
    claimC2Holds e' := by
  rw [run] at h
  have hmk : (mkEngine ic comm slip).initial_capital = ic := rfl
  rw [hmk] at h
  have hinv0 : c2Inv ic 0 ic [] (mkEngine ic comm slip) := by
    refine ⟨rfl, rfl, fun _ => ⟨rfl, rfl, rfl⟩, ?_, ?_, ?_⟩
    · intro hlt
      exact absurd hlt (by simp)
    · intro j s s' hs hs'
      simp [mkEngine] at hs
    · intro s hs
      simp [mkEngine] at hs
  obtain ⟨⟨i', cash', positions', hinv⟩, hne⟩ :=
    runFrom_c2 data 0 ic [] (mkEngine ic comm slip) e' hall hinv0 h
  obtain ⟨hic, hlen, h0, hpos, hpair, hfst⟩ := hinv
  have hipos : 0 < i' := by
    rcases Nat.eq_zero_or_pos i' with h0' | hp
    · exact absurd (List.length_eq_zero.mp (hlen.trans h0')) hne
    · exact hp
  refine ⟨?_, ?_, ?_⟩
  · rw [(hpos hipos).1.symm] at hlen
    omega
  · intro j s s' hs hs'
    exact hpair j s s' hs hs'
  · intro s hs
    have := hfst s hs
    rw [hic]
    exact this

/-- Counterexample to claim C2 as stated (without a no-skip hypothesis): on
`dataC2`/`sigsC2` the first date is absent from the signal frame, so the
single processed date is recorded with `i = 1`; `equity_curve[i-1]` then reads
the *current* date's own snapshot and a spurious daily return of `0` is
recorded for the very first recorded date, leaving one return per snapshot
instead of one fewer. -/
theorem claim_C2_counterexample : ¬ claimC2Statement := by
  intro hstmt
  have hc := hstmt 1000 0 0 dataC2 sigsC2 eC2 run_eC2
  have h1 := hc.1
  rw [eC2] at h1
  simp at h1

/-- Witness for the amended claim C2 on a concrete no-skip run. -/
theorem claim_C2_witness :
    (∀ day ∈ dataC1, (signalsFor sigsC1 day.date).isSome) ∧ claimC2Holds eC1 :=
  ⟨by decide, claim_C2 100000 0 0 dataC1 sigsC1 eC1 (by decide) run_eC1⟩

/-- C10 (amended): state persists across runs on the same engine instance —
every completed `run` returns an engine whose equity curve, daily returns,
positions history and trade log extend (have as a prefix) the lists the engine
held before the call; a second run therefore returns the first run's records
with the new ones appended, rather than the first run's records themselves.
Identical outputs require a freshly constructed engine per run. -/
theorem claim_C10 (e : BacktestEngine) (data : List DayData)
    (signals : List SigDay) (e' : BacktestEngine)
    (h : run e data signals = .ok e') :
    ∃ cs rs ps ts, e'.equity_curve = e.equity_curve ++ cs ∧
      e'.daily_returns = e.daily_returns ++ rs ∧
      e'.positions_history = e.positions_history ++ ps ∧
      e'.trades = e.trades ++ ts :=
  runFrom_extends signals data 0 e.initial_capital [] e e' h

/-- Counterexample to C10 as stated: on a one-date input, the second `run` on
the same engine instance returns a two-snapshot equity curve and a two-entry
trade log, not the first run's one-snapshot curve and one-entry log. -/
theorem claim_C10_counterexample : ¬ claimC10Statement := by
  intro h
  have h2 := h 1000 0 0 dataC10 sigsC10 eC10a eC10b run_eC10_once run_eC10_twice
  have hlen := congrArg List.length h2.1
  simp [eC10a, eC10b] at hlen

/-- Witness for the amended C10: a completed concrete run, with the returned
lists extending the engine's prior (empty) lists. -/
theorem claim_C10_witness :
    (run (mkEngine 1000 0 0) dataC10 sigsC10 = .ok eC10a) ∧
    (∃ cs rs ps ts,
      eC10a.equity_curve = (mkEngine 1000 0 0).equity_curve ++ cs ∧
      eC10a.daily_returns = (mkEngine 1000 0 0).daily_returns ++ rs ∧
      eC10a.positions_history = (mkEngine 1000 0 0).positions_history ++ ps ∧
      eC10a.trades = (mkEngine 1000 0 0).trades ++ ts) :=
  ⟨run_eC10_once, claim_C10 (mkEngine 1000 0 0) dataC10 sigsC10 eC10a run_eC10_once⟩

/-- C7 (amended): the open/adjust step trades exactly when `|shares_diff|`
strictly exceeds the 0.01-share threshold.  At or below the threshold
(boundary included, where the claim as stated demanded a trade) nothing
happens; above it, cash moves by `shares_diff * price * (1 + slippage)` plus
commission on the absolute trade value, the position is set to the target
shares, and a zero-P&L trade is logged. -/
theorem claim_C7 (comm slip : ℚ) (date : ℕ) (cash : ℚ)
    (positions : List Pos) (trades : List Trade) (tg : Target) :
    ((|tg.target_shares - ((findPos positions tg.ticker).map Pos.shares).getD 0| ≤ 1 / 100 →
        openAdjustOne comm slip date (cash, positions, trades) tg = (cash, positions, trades)) ∧
     (1 / 100 < |tg.target_shares - ((findPos positions tg.ticker).map Pos.shares).getD 0| →
        openAdjustOne comm slip date (cash, positions, trades) tg =
          (cash - ((tg.target_shares - ((findPos positions tg.ticker).map Pos.shares).getD 0) *
                tg.price * (1 + slip) +
              |(tg.target_shares - ((findPos positions tg.ticker).map Pos.shares).getD 0) *
                tg.price * (1 + slip)| * comm),
           setPos positions tg.ticker tg.target_shares tg.price,
           trades ++ [⟨date, tg.ticker,
             if 0 < tg.target_shares - ((findPos positions tg.ticker).map Pos.shares).getD 0
             then .buy else .sell,
             |tg.target_shares - ((findPos positions tg.ticker).map Pos.shares).getD 0|,
             tg.price, 0⟩]))) := by
  constructor
  · intro h
    simp only [openAdjustOne]
    rw [if_neg (not_lt.mpr h)]
  · intro h
    simp only [openAdjustOne]
    rw [if_pos h]

/-- Counterexample to C7 as stated: with no held position and a target of
exactly 0.01 shares, `|shares_diff| = 0.01` is not strictly below the
threshold, so the claim's "otherwise" branch demands a trade — but the source
condition `abs(shares_diff) > 0.01` is false and nothing is traded. -/
theorem claim_C7_counterexample : ¬ claimC7Statement := by
  intro h
  have h2 := (h 0 0 5 0 [] [] ⟨0, 1 / 100, 100⟩).2
    (by norm_num [findPos, List.find?, abs_of_nonneg])
  have heval : openAdjustOne 0 0 5 (0, [], []) ⟨0, 1 / 100, 100⟩ = (0, [], []) := by
    norm_num [openAdjustOne, findPos, List.find?, abs_of_nonneg]
  rw [heval] at h2
  have hlen := congrArg (fun x : ℚ × List Pos × List Trade => x.2.2.length) h2
  simp at hlen

/-- Witness for the amended C7: a diff of 2 shares is above the threshold and
produces exactly the trade and cash movement of the formula. -/
theorem claim_C7_witness :
    (1 / 100 < |(2 : ℚ) - ((findPos [] 0).map Pos.shares).getD 0|) ∧
    openAdjustOne 0 0 5 (0, [], []) ⟨0, 2, 100⟩ =
      (-200, [⟨0, 2, 100⟩], [⟨5, 0, .buy, 2, 100, 0⟩]) := by
  refine ⟨by norm_num [findPos, List.find?, abs_of_nonneg], ?_⟩
  have h := (claim_C7 0 0 5 0 [] [] ⟨0, 2, 100⟩).2
    (by norm_num [findPos, List.find?, abs_of_nonneg])
  rw [h]
  norm_num [findPos, setPos, List.find?, abs_of_nonneg]

/-- C9 (amended): with an empty daily-returns series the metrics calculator
returns the error marker `{"error": "No backtest results available"}` before
computing anything — it does not report a metrics dict, and in particular does
not report the total return as the annualized return; the `252/num_days`
exponent is never evaluated at `num_days = 0`. -/
theorem claim_C9 (e : BacktestEngine) (h : e.daily_returns = []) :
    get_performance_metrics e = .error "No backtest results available" := by
  rw [get_performance_metrics, if_pos (by rw [h]; rfl)]

/-- Counterexample to C9 as stated: a fresh engine has `num_days = 0`, and the
calculator returns the error marker, not a metrics record with
`annualized_return = total_return`. -/
theorem claim_C9_counterexample : ¬ claimC9Statement := by
  intro h
  obtain ⟨m, hm, -⟩ := h (mkEngine 1 0 0) rfl
  rw [show get_performance_metrics (mkEngine 1 0 0) =
    .error "No backtest results available" from rfl] at hm
  cases hm

/-- Witness for the amended C9: the fresh default-parameter engine. -/
theorem claim_C9_witness :
    (mkEngine 100000 (1 / 1000) (1 / 2000)).daily_returns = [] ∧
    get_performance_metrics (mkEngine 100000 (1 / 1000) (1 / 2000)) =
      .error "No backtest results available" :=
  ⟨rfl, claim_C9 _ rfl⟩

/-- C6 (amended): the combiner performs no configuration validation and raises
no `ConfigurationError`: for every configuration (including
`top_n_assets < 1`) it completes and returns a full output table whenever at
least one strategy is present, and the only failure is the generic
concatenation error raised mid-computation when the strategies list is
empty. -/
theorem claim_C6 (cfg : PortfolioConfig) (index : List (ℕ × ℕ))
    (tables : List (List (Option ℚ))) :
    (tables = [] → generate_ensemble_signals cfg index tables =
      .error "No objects to concatenate") ∧
    (tables ≠ [] → ∃ out, generate_ensemble_signals cfg index tables = .ok out) := by
  constructor
  · intro h
    subst h
    rfl
  · intro h
    exact ⟨_, by
      rw [generate_ensemble_signals,
        if_neg (by simpa [List.isEmpty_iff] using h)]⟩

/-- Counterexample to C6 as stated: with `top_n_assets = 0` (and one strategy)
the combiner does not fail — it returns a complete table (with zero positions
and weights), so no `ConfigurationError` is raised before computation. -/
theorem claim_C6_counterexample : ¬ claimC6Statement := by
  intro h
  obtain ⟨msg, hmsg⟩ := h cfgC6 idxW tabsW (Or.inl (by norm_num [cfgC6]))
  rw [gen_cfgC6_eval] at hmsg
  cases hmsg

/-- Witness for the amended C6: the empty strategies list fails with the
concatenation error, and a nonempty strategies list returns a table. -/
theorem claim_C6_witness :
    (generate_ensemble_signals cfgW idxW ([] : List (List (Option ℚ))) =
      .error "No objects to concatenate") ∧
    (tabsW ≠ [] ∧ ∃ out, generate_ensemble_signals cfgW idxW tabsW = .ok out) :=
  ⟨(claim_C6 cfgW idxW []).1 rfl,
   by simp [tabsW], (claim_C6 cfgW idxW tabsW).2 (by simp [tabsW])⟩

/-- C1 (evaluation at the failing input): asset 0 is fully bought on date 0
(1000 shares, all cash spent).  On date 1 asset 0 is absent from the market
data and absent from the target set, so the source runs
`del positions[ticker]` outside the `if ticker in combined.index` guard: the
positions history records an empty positions dict for date 1, while the trade
log still holds only the single date-0 BUY (no sale was logged) and the
recorded cash is unchanged at 0 on both dates — the held shares silently
vanish instead of being preserved through the data gap. -/
theorem claim_C1_bug_eval :
    (run (mkEngine 100000 0 0) dataC1 sigsC1).map (fun e =>
      (e.positions_history, e.trades, e.equity_curve.map (fun s => s.cash))) =
    .ok ([⟨0, [⟨0, 1000, 100⟩]⟩, ⟨1, []⟩],
         [⟨0, 0, .buy, 1000, 100, 0⟩], [0, 0]) := by
  rw [run_eC1]
  simp [eC1, Except.map]

end EnsembleModel
